import Mathlib

/-!
# Verification of the in-memory WebDAV lock manager (`lock.go`)

This file is a shallow embedding, in Lean 4, of the in-memory lock system
`memLS` of the `webdav` package (file `lock.go`), together with theorems
settling the specification claims about it.

Modelling conventions:
* Go `time.Time` and `time.Duration` are both modelled as `Int`
  (nanoseconds / absolute instants).  `now.Add(d)` is `now + d`,
  `a.Before(b)` is `a < b`.  A negative duration means "infinite".
* Go maps (`byName`, `byToken`) are modelled as association lists with
  lookup `find?`; insertion removes any previous binding of the key, so
  keys stay unique, exactly as for a Go map.
* The Go `container/heap` priority queue `byExpiry` (ordering
  `Less i j = expiry i < expiry j`, with `heap.Push`, `heap.Remove`,
  minimum at index 0) is modelled as a list of `(expiry, root)` pairs kept
  sorted by ascending expiry.  Index 0 of the heap corresponds to the head
  of the list.  Ties between equal expiries are ordered deterministically
  here while the heap leaves them unspecified; no property proved below
  depends on the order of equal-expiry entries.  The node field
  `byExpiryIndex >= 0` ("present in the heap") is modelled as membership of
  the node's root in this list.
* Node identity: Go nodes are heap pointers shared by `byName`, `byToken`
  and `byExpiry`.  Every node satisfies `node.details.Root = its byName key`
  (comment on `memLSNode.details` in the source), so nodes are identified
  here by their root path: `byToken` maps a token to a root, and the
  expiry queue stores roots.
* Strings are handled through their `List Char` data; the Go standard
  library string helpers used by the source (`strings.HasPrefix`,
  `strings.TrimSpace`, `strings.IndexByte`, `path.Dir`, `path.Clean`) are
  given explicit list-level models next to their uses.
-/

namespace Webdav

/-! ### Definitions -/

/-! ## Association-list model of Go maps -/

/-- Lookup in an association list (model of Go map indexing). -/
def find? {β : Type} : List (String × β) → String → Option β
  | [], _ => none
  | (k', v) :: t, k => if k' = k then some v else find? t k

/-- Model of Go `delete(m, k)`: drop every binding of `k`. -/
def eraseKey {β : Type} (m : List (String × β)) (k : String) : List (String × β) :=
  m.filter (fun p => !(p.1 == k))

/-- Model of Go `m[k] = v`. -/
def insertKey {β : Type} (m : List (String × β)) (k : String) (v : β) : List (String × β) :=
  (k, v) :: eraseKey m k

/-- Update the value bound to `k` in place (model of mutating the node a
Go map entry points to). -/
def updateKey {β : Type} (m : List (String × β)) (k : String) (f : β → β) : List (String × β) :=
  m.map (fun p => if p.1 = k then (p.1, f p.2) else p)

/-! ## Character-list string helpers (models of Go stdlib functions) -/

/-- `listLeads p s`: the char list `p` is a leading segment of `s`
(model of `strings.HasPrefix s p` at the data level). -/
def listLeads : List Char → List Char → Bool
  | [], _ => true
  | _ :: _, [] => false
  | a :: as, b :: bs => a == b && listLeads as bs

/-- Model of Go `strings.HasPrefix(s, p)`. -/
def strLeads (p s : String) : Bool := listLeads p.data s.data

/-- Split a char list on a separator (model of the separator scanning done
by Go `path.Clean` / `strings.Split`). -/
def splitOnChar (sep : Char) : List Char → List (List Char)
  | [] => [[]]
  | c :: t =>
    let r := splitOnChar sep t
    if c == sep then [] :: r
    else
      match r with
      | [] => [[c]]
      | h :: t' => (c :: h) :: t'

/-- Model of Go `strings.TrimSpace` (Unicode white space is modelled by
`Char.isWhitespace`; the inputs of interest are ASCII, where they agree). -/
def trimSpace (s : String) : String :=
  String.mk (((s.data.dropWhile Char.isWhitespace).reverse.dropWhile Char.isWhitespace).reverse)

/-- Model of `if i := strings.IndexByte(s, ','); i >= 0 { s = s[:i] }`:
the part of `s` before the first comma. -/
def firstCommaChunk (s : String) : String :=
  String.mk (s.data.takeWhile (fun c => !(c == ',')))

def isDigitChar (c : Char) : Bool := '0' ≤ c && c ≤ '9'

/-- Numeric value of a big-endian list of decimal digit characters
(the accumulator loop inside Go `strconv.ParseInt`). -/
def digitsToNat (l : List Char) : Nat :=
  l.foldl (fun a c => a * 10 + (c.toNat - 48)) 0

/-- Big-endian decimal digits of `n` (`fuel ≥ n` suffices).
Helper for `formatUint`. -/
def formatUintAux : Nat → Nat → List Char
  | 0, _ => []
  | _ + 1, 0 => []
  | fuel + 1, n => formatUintAux fuel (n / 10) ++ [Nat.digitChar (n % 10)]

/-- Model of Go `strconv.FormatUint(n, 10)`. -/
def formatUint (n : Nat) : String :=
  if n = 0 then "0" else String.mk (formatUintAux n n)

/-! ## Path handling

`slashClean` lives outside `lock.go` (the spec lists path utilities as an
external collaborator), so it is modelled from the spec.  The parent walk
(`walkToRoot`, `path.Dir`) is translated from the source. -/

/-- Modelled from the spec: the external absolute-path normalizer
`slashClean(name) = path.Clean("/" + name)` — "resolving `.`/`..`,
collapsing repeated separators, always yielding an absolute, leading-slash
form".  Segments are split on `/`; empty and `.` segments are dropped,
`..` removes the previous kept segment (or nothing at the root). -/
def slashClean (name : String) : String :=
  let segs := (splitOnChar '/' name.data).foldl
    (fun acc s =>
      if s.isEmpty || s == ['.'] then acc
      else if s == ['.', '.'] then acc.dropLast
      else acc ++ [s]) ([] : List (List Char))
  String.mk ('/' :: List.intercalate ['/'] segs)

/-- `name[:strings.LastIndex(name, "/")]` — everything before the final
slash (used by `walkToRoot`; `path.Dir` coincides with this on the cleaned
absolute paths that reach it, up to the `"" → "/"` step below). -/
def trimLastSegment (s : String) : String :=
  String.mk ((((s.data.reverse).dropWhile (fun c => !(c == '/'))).drop 1).reverse)

/-- One parent step of `walkToRoot`:
`name = name[:strings.LastIndex(name, "/")]; if name == "" { name = "/" }`. -/
def parentStep (s : String) : String :=
  let p := trimLastSegment s
  if p = "" then "/" else p

/-- The sequence of names visited by `walkToRoot(name, f)`: `name` itself,
then each parent in turn, ending with `"/"`.  The source's loop visits
exactly this list (`first` is true at the head); the fuel bounds the number
of parent steps and is never exhausted on the slash-containing paths that
reach `walkToRoot` (each step shortens such a name or reaches `"/"`). -/
def pathLevelsFuel : Nat → String → List String
  | 0, _ => []
  | fuel + 1, name =>
    if name = "/" then ["/"]
    else name :: pathLevelsFuel fuel (parentStep name)

def pathLevels (name : String) : List String :=
  pathLevelsFuel (name.length + 1) name

/-! ## Data model -/

/-- Go `webdav` sentinel errors (plus the timeout-parsing error). -/
inductive WErr where
  | confirmationFailed
  | forbidden
  | locked
  | noSuchLock
  | invalidTimeout
deriving DecidableEq, Repr

/-- `LockDetails`: a lock's metadata.  `duration < 0` means infinite. -/
structure LockDetails where
  root : String
  duration : Int
  ownerXML : String
  zeroDepth : Bool
deriving DecidableEq, Repr

/-- `Condition`: a caller-presented claim.  `negate` models the Go field
`Not`; `etag` models `ETag`. -/
structure Condition where
  negate : Bool
  token : String
  etag : String
deriving DecidableEq, Repr

/-- `memLSNode`.  `token = ""` means the node is not explicitly locked
(it only anchors descendant refcounts).  The Go field `byExpiryIndex` is
represented by membership of the node's root in `MemLS.byExpiry`. -/
structure MemLSNode where
  details : LockDetails
  token : String
  refCount : Int
  expiry : Int
  held : Bool
deriving DecidableEq, Repr

/-- `memLS`.  `byToken` maps a token to the root of its node; `byExpiry`
is the expiry queue as `(expiry, root)` pairs in ascending expiry order
(see the header comment on the heap model). -/
structure MemLS where
  byName : List (String × MemLSNode)
  byToken : List (String × String)
  gen : Nat
  byExpiry : List (Int × String)
deriving DecidableEq, Repr

/-- `NewMemLS`.  The Go constructor seeds `gen` from the wall clock
(`uint64(time.Now().Unix())`); that instant is the explicit `seed`
parameter here. -/
def NewMemLS (seed : Nat) : MemLS :=
  { byName := [], byToken := [], gen := seed, byExpiry := [] }

/-! ## Expiry queue operations (model of `container/heap` on `byExpiry`) -/

/-- `heap.Push(&m.byExpiry, n)`: insert keeping ascending expiry order. -/
def pushExpiry (e : Int) (r : String) : List (Int × String) → List (Int × String)
  | [] => [(e, r)]
  | (e', r') :: t =>
    if e' ≤ e then (e', r') :: pushExpiry e r t else (e, r) :: (e', r') :: t

/-- `heap.Remove(&m.byExpiry, n.byExpiryIndex)` guarded by
`n.byExpiryIndex >= 0`: drop the entry of root `r` (a no-op when absent,
matching the guard). -/
def eraseExpiry (q : List (Int × String)) (r : String) : List (Int × String) :=
  q.filter (fun p => !(p.2 == r))

/-! ## Removal and the expiry sweep -/

/-- One level of `remove`'s `walkToRoot` visitor:
`x := m.byName[name0]; if x == nil { return }; x.refCount--;
if x.refCount == 0 { delete(m.byName, name0) }`. -/
def decRefAt (byName : List (String × MemLSNode)) (name0 : String) :
    List (String × MemLSNode) :=
  match find? byName name0 with
  | none => byName
  | some x =>
    if x.refCount - 1 = 0 then eraseKey byName name0
    else updateKey byName name0 (fun y => { y with refCount := y.refCount - 1 })

/-- `memLS.remove(n)` where `n` is the node stored under root `r`:
deregister the token, clear it on the node, decrement refcounts from the
node's root up to `"/"` deleting zeroed nodes, and drop the node from the
expiry queue.  (The `none` case cannot arise at the source's call sites,
which always pass a node found in one of the maps.) -/
def remove (s : MemLS) (r : String) : MemLS :=
  match find? s.byName r with
  | none => { s with byExpiry := eraseExpiry s.byExpiry r }
  | some n =>
    let byToken := eraseKey s.byToken n.token
    let byName := updateKey s.byName r (fun x => { x with token := "" })
    let byName := (pathLevels n.details.root).foldl decRefAt byName
    { s with byToken := byToken, byName := byName,
             byExpiry := eraseExpiry s.byExpiry r }

/-- The loop of `collectExpiredNodes`, with explicit fuel: while the
queue minimum exists and its expiry is not after `now`, fully remove it.
Each iteration removes at least the head queue entry
(`eraseExpiry_head_lt`), so fuel equal to the initial queue length is
never exhausted and the fuel plays no semantic role. -/
def collectAux : Nat → Int → MemLS → MemLS
  | 0, _, s => s
  | fuel + 1, now, s =>
    match s.byExpiry with
    | [] => s
    | (e, r) :: _ =>
      if now < e then s
      else collectAux fuel now (remove s r)

/-- `memLS.collectExpiredNodes(now)`. -/
def collectExpiredNodes (now : Int) (s : MemLS) : MemLS :=
  collectAux s.byExpiry.length now s

/-! ## canCreate / create -/

/-- The body of `canCreate`'s `walkToRoot` visitor. -/
def checkLevel (s : MemLS) (zeroDepth : Bool) (first : Bool) (name0 : String) : Bool :=
  match find? s.byName name0 with
  | none => true
  | some n =>
    if first then
      if n.token ≠ "" then false
      else if !zeroDepth then false
      else true
    else
      if n.token ≠ "" && !n.details.zeroDepth then false else true

/-- `memLS.canCreate(name, zeroDepth)`.  The source's early-stopping walk
of a pure visitor returns true iff the visitor accepts every visited
level; the walk's visit order is `pathLevels name` with `first` true
exactly at the head. -/
def canCreate (s : MemLS) (name : String) (zeroDepth : Bool) : Bool :=
  match pathLevels name with
  | [] => true
  | target :: ancestors =>
    checkLevel s zeroDepth true target && ancestors.all (checkLevel s zeroDepth false)

/-- One level of `create`'s `walkToRoot` visitor: materialize a missing
node (fresh nodes carry `details = LockDetails{Root: name0}`, zero-valued
otherwise, and `byExpiryIndex = -1`), then `n.refCount++`. -/
def createNodeAt (byName : List (String × MemLSNode)) (name0 : String) :
    List (String × MemLSNode) :=
  match find? byName name0 with
  | some _ => updateKey byName name0 (fun n => { n with refCount := n.refCount + 1 })
  | none =>
    insertKey byName name0
      { details := { root := name0, duration := 0, ownerXML := "", zeroDepth := false },
        token := "", refCount := 1, expiry := 0, held := false }

/-- `memLS.create(name)` restricted to its `byName` effect; the returned
target node is the one left under key `name`. -/
def createWalk (byName : List (String × MemLSNode)) (name : String) :
    List (String × MemLSNode) :=
  (pathLevels name).foldl createNodeAt byName

/-! ## Public operations

Each `...Post` function is the body of the corresponding exported method
after its opening `collectExpiredNodes` sweep; the exported wrapper
performs the sweep first, exactly as in the source. -/

/-- `memLS.Create` after the sweep: normalize the root, check
`canCreate`, walk the tree incrementing refcounts, assign the next token,
store the details on the target node, and if the duration is finite set
`expiry = now + duration` and push onto the queue. -/
def CreatePost (now : Int) (details : LockDetails) (s : MemLS) :
    Except WErr String × MemLS :=
  let root := slashClean details.root
  let details' := { details with root := root }
  if canCreate s root details'.zeroDepth then
    let byName := createWalk s.byName root
    let gen := s.gen + 1
    let token := formatUint gen
    let byName := updateKey byName root (fun n =>
      { n with token := token, details := details',
               expiry := if 0 ≤ details'.duration then now + details'.duration else n.expiry })
    let byToken := insertKey s.byToken token root
    let byExpiry :=
      if 0 ≤ details'.duration then pushExpiry (now + details'.duration) root s.byExpiry
      else s.byExpiry
    (Except.ok token,
      { byName := byName, byToken := byToken, gen := gen, byExpiry := byExpiry })
  else
    (Except.error WErr.locked, s)

def Create (now : Int) (details : LockDetails) (s : MemLS) :
    Except WErr String × MemLS :=
  CreatePost now details (collectExpiredNodes now s)

/-- `memLS.lookup(name, conditions...)`: scan the conditions in order and
return the first non-held node named by a condition's token that locks
`name` (exact root, or an infinite-depth ancestor: root `"/"` or
`root + "/"` a leading part of `name`).  Only `Condition.Token` is
consulted (the source's TODO leaves `Not` and `ETag` unevaluated).  The
result carries the node's root (its identity) and the node. -/
def lookup (s : MemLS) (name : String) : List Condition → Option (String × MemLSNode)
  | [] => none
  | c :: rest =>
    match find? s.byToken c.token with
    | none => lookup s name rest
    | some r =>
      match find? s.byName r with
      | none => lookup s name rest
      | some n =>
        if n.held then lookup s name rest
        else if name = n.details.root then some (r, n)
        else if n.details.zeroDepth then lookup s name rest
        else if n.details.root = "/" then some (r, n)
        else if strLeads (n.details.root ++ "/") name then some (r, n)
        else lookup s name rest

/-- `memLS.hold(n)`: mark held; if the duration is finite and the node is
queued, remove it from the expiry queue.  (The source panics when the
node is already held; every call site has just checked `!n.held` through
`lookup`, so the panic branch is unreachable and not modelled.) -/
def hold (s : MemLS) (r : String) : MemLS :=
  match find? s.byName r with
  | none => s
  | some n =>
    { s with byName := updateKey s.byName r (fun x => { x with held := true }),
             byExpiry := if 0 ≤ n.details.duration then eraseExpiry s.byExpiry r
                         else s.byExpiry }

/-- `memLS.unhold(n)`: clear held; if the duration is finite, push the
node back onto the expiry queue with its stored expiry.  (The source
panics when the node is not held; release is modelled as invoked once, on
nodes Confirm has just held.) -/
def unhold (s : MemLS) (r : String) : MemLS :=
  match find? s.byName r with
  | none => s
  | some n =>
    { s with byName := updateKey s.byName r (fun x => { x with held := false }),
             byExpiry := if 0 ≤ n.details.duration then pushExpiry n.expiry r s.byExpiry
                         else s.byExpiry }

/-- Resolution of one name inside `Confirm`: empty names are ignored,
otherwise the name is normalized and looked up; no match is
`ErrConfirmationFailed`. -/
def resolveName (s : MemLS) (name : String) (conditions : List Condition) :
    Except WErr (Option String) :=
  if name = "" then Except.ok none
  else
    match lookup s (slashClean name) conditions with
    | none => Except.error WErr.confirmationFailed
    | some (r, _) => Except.ok (some r)

/-- `memLS.Confirm` after the sweep.  On success the returned value is the
pair of node roots captured by the Go release closure (`n0`, `n1`), with
`n1` cleared when both names resolved to the same node ("don't hold the
same node twice"); both holds are applied after both lookups, as in the
source. -/
def ConfirmPost (name0 name1 : String) (conditions : List Condition) (s : MemLS) :
    Except WErr (Option String × Option String) × MemLS :=
  match resolveName s name0 conditions with
  | Except.error e => (Except.error e, s)
  | Except.ok r0 =>
    match resolveName s name1 conditions with
    | Except.error e => (Except.error e, s)
    | Except.ok r1 =>
      let r1 := if r1 = r0 then none else r1
      let s1 := match r0 with | none => s | some r => hold s r
      let s2 := match r1 with | none => s1 | some r => hold s1 r
      (Except.ok (r0, r1), s2)

def Confirm (now : Int) (name0 name1 : String) (conditions : List Condition)
    (s : MemLS) : Except WErr (Option String × Option String) × MemLS :=
  ConfirmPost name0 name1 conditions (collectExpiredNodes now s)

/-- The release closure returned by a successful `Confirm`: unhold `n1`
then `n0`. -/
def release (handle : Option String × Option String) (s : MemLS) : MemLS :=
  let s1 := match handle.2 with | none => s | some r => unhold s r
  match handle.1 with | none => s1 | some r => unhold s1 r

/-- `memLS.Refresh` after the sweep. -/
def RefreshPost (now : Int) (token : String) (duration : Int) (s : MemLS) :
    Except WErr LockDetails × MemLS :=
  match find? s.byToken token with
  | none => (Except.error WErr.noSuchLock, s)
  | some r =>
    match find? s.byName r with
    | none => (Except.error WErr.noSuchLock, s)
    | some n =>
      if n.held then (Except.error WErr.locked, s)
      else
        let q := eraseExpiry s.byExpiry r
        let details' := { n.details with duration := duration }
        let expiry' := if 0 ≤ duration then now + duration else n.expiry
        let byName := updateKey s.byName r
          (fun x => { x with details := details', expiry := expiry' })
        let byExpiry := if 0 ≤ duration then pushExpiry expiry' r q else q
        (Except.ok details', { s with byName := byName, byExpiry := byExpiry })

def Refresh (now : Int) (token : String) (duration : Int) (s : MemLS) :
    Except WErr LockDetails × MemLS :=
  RefreshPost now token duration (collectExpiredNodes now s)

/-- `memLS.Unlock` after the sweep. -/
def UnlockPost (token : String) (s : MemLS) : Except WErr Unit × MemLS :=
  match find? s.byToken token with
  | none => (Except.error WErr.noSuchLock, s)
  | some r =>
    match find? s.byName r with
    | none => (Except.error WErr.noSuchLock, s)
    | some n =>
      if n.held then (Except.error WErr.locked, s)
      else (Except.ok (), remove s r)

def Unlock (now : Int) (token : String) (s : MemLS) : Except WErr Unit × MemLS :=
  UnlockPost token (collectExpiredNodes now s)

/-- `memLS.Delete` after the sweep.  Note: the source does not normalize
`name` here (unlike `Create`, `Confirm` and `GetByName`). -/
def DeletePost (name : String) (s : MemLS) : Except WErr Unit × MemLS :=
  match find? s.byName name with
  | none => (Except.ok (), s)
  | some _ => (Except.ok (), remove s name)

def Delete (now : Int) (name : String) (s : MemLS) : Except WErr Unit × MemLS :=
  DeletePost name (collectExpiredNodes now s)

/-- The upward loop of `GetByName`: visit the cleaned name and its
parents in order (`path.Dir` per step, i.e. the `pathLevels` sequence),
returning the first node with a non-empty token and `ErrNoSuchLock` once
`"/"` is passed without one. -/
def getByNameLoop (s : MemLS) : List String → Except WErr (String × Int × LockDetails)
  | [] => Except.error WErr.noSuchLock
  | name :: rest =>
    match find? s.byName name with
    | some n =>
      if n.token ≠ "" then Except.ok (n.token, n.expiry, n.details)
      else if name = "/" then Except.error WErr.noSuchLock
      else getByNameLoop s rest
    | none =>
      if name = "/" then Except.error WErr.noSuchLock
      else getByNameLoop s rest

/-- `memLS.GetByName`.  Unlike every other public operation, its sweep
runs at `time.Now()` — the wall clock, not a caller-supplied `now`; that
sampled instant is the explicit `wallNow` argument here. -/
def GetByName (wallNow : Int) (name : String) (s : MemLS) :
    Except WErr (String × Int × LockDetails) × MemLS :=
  let s' := collectExpiredNodes wallNow s
  (getByNameLoop s' (pathLevels (slashClean name)), s')

/-! ## Timeout header parsing -/

/-- `infiniteTimeout`: the negative sentinel duration. -/
def infiniteTimeout : Int := -1

/-- The digit tail of `"Second-..."`: reject an empty tail or a non-digit
first byte (excluding the signs `strconv.ParseInt` would accept), require
all digits (`ParseInt` base 10, bit size 64), reject values over
`int64` range and then over `2^32 - 1`, and scale to nanoseconds
(`time.Duration(n) * time.Second`). -/
def parseSeconds (ds : List Char) : Except WErr Int :=
  match ds with
  | [] => Except.error WErr.invalidTimeout
  | c :: _ =>
    if !(isDigitChar c) then Except.error WErr.invalidTimeout
    else if !(ds.all isDigitChar) then Except.error WErr.invalidTimeout
    else
      let n := digitsToNat ds
      if 2 ^ 63 - 1 < n then Except.error WErr.invalidTimeout
      else if 2 ^ 32 - 1 < n then Except.error WErr.invalidTimeout
      else Except.ok (Int.ofNat n * 1000000000)

/-- The part of `parseTimeout` after comma-splitting and trimming:
`"Infinite"`, or `strings.HasPrefix(s, "Second-")` followed by slicing
off the prefix (`s.data.drop 7`) and parsing the digits. -/
def parseTimeoutEntry (s : String) : Except WErr Int :=
  if s = "Infinite" then Except.ok infiniteTimeout
  else if strLeads "Second-" s then parseSeconds (s.data.drop 7)
  else Except.error WErr.invalidTimeout

/-- `parseTimeout(s)`. -/
def parseTimeout (s : String) : Except WErr Int :=
  if s = "" then Except.ok infiniteTimeout
  else parseTimeoutEntry (trimSpace (firstCommaChunk s))

/-! ## Spec-side formulations

These definitions follow the wording of the specification (not the
source); the theorems below compare them with the source translations
above. -/

/-- Spec wording of a node matching a name in `Confirm`'s lookup: "exact
root match, or the node's root is an ancestor of the name under infinite
depth (root is `\"/\"` or the name has `root + \"/\"` as a prefix)". -/
def specMatchesName (name : String) (n : MemLSNode) : Bool :=
  name == n.details.root ||
    (!n.details.zeroDepth &&
      (n.details.root == "/" || strLeads (n.details.root ++ "/") name))

/-- Spec wording of "a Condition whose token names a non-held node that
matches the name". -/
def condMatches (s : MemLS) (name : String) (c : Condition) : Bool :=
  match find? s.byToken c.token with
  | none => false
  | some r =>
    match find? s.byName r with
    | none => false
    | some n => !n.held && specMatchesName name n

/-- Spec wording of name resolution: "the first Condition in list order
whose token names a non-held node matching the name". -/
def specResolve (s : MemLS) (name : String) : List Condition → Option (String × MemLSNode)
  | [] => none
  | c :: rest =>
    if condMatches s name c then
      match find? s.byToken c.token with
      | none => none
      | some r =>
        match find? s.byName r with
        | none => none
        | some n => some (r, n)
    else specResolve s name rest

/-- The nearest covering lock along a level list: the first level carrying
a node with a non-empty token (spec wording of `GetByName`'s result). -/
def firstLockedLevel (s : MemLS) : List String → Option (String × MemLSNode)
  | [] => none
  | l :: rest =>
    match find? s.byName l with
    | some n => if n.token ≠ "" then some (l, n) else firstLockedLevel s rest
    | none => firstLockedLevel s rest

/-- `r` lies at or below `p` in the slash-separated namespace. -/
def isAtOrBelow (p r : String) : Bool :=
  r == p || (if p == "/" then true else strLeads (p ++ "/") r)

/-- Number of explicitly locked paths at or below `p`. -/
def lockedAtOrBelowCount (byName : List (String × MemLSNode)) (p : String) : Nat :=
  (byName.filter (fun q => !(q.2.token == "") && isAtOrBelow p q.1)).length

/-- The namespace-tree invariants of the spec: every materialized node has
a positive `refCount` equal to the number of explicitly locked paths at or
below it, and every level above a locked path is materialized. -/
def treeInvariantB (s : MemLS) : Bool :=
  s.byName.all (fun q =>
    decide (0 < q.2.refCount) &&
      decide (q.2.refCount = Int.ofNat (lockedAtOrBelowCount s.byName q.1))) &&
  s.byName.all (fun q =>
    q.2.token == "" || (pathLevels q.1).all (fun l => (find? s.byName l).isSome))

/-- Two lock details conflict under the hierarchical-exclusivity rules of
§4.2: identical roots, or either lock has infinite depth and covers the
other's root. -/
def locksConflict (d1 d2 : LockDetails) : Bool :=
  d1.root == d2.root ||
    (!d1.zeroDepth && (d1.root == "/" || strLeads (d1.root ++ "/") d2.root)) ||
    (!d2.zeroDepth && (d2.root == "/" || strLeads (d2.root ++ "/") d1.root))

/-- Hierarchical exclusivity over a state: no two distinct explicitly
locked nodes conflict. -/
def hierarchicalExclusivityB (s : MemLS) : Bool :=
  s.byName.all (fun p =>
    s.byName.all (fun q =>
      p.1 == q.1 || p.2.token == "" || q.2.token == "" ||
        !(locksConflict p.2.details q.2.details)))

/-- The queue is in ascending expiry order (always true of the model's
sorted-list rendering of the heap when built by the operations). -/
def sortedByExpiryB : List (Int × String) → Bool
  | [] => true
  | [_] => true
  | a :: b :: t => decide (a.1 ≤ b.1) && sortedByExpiryB (b :: t)

/-- The queue's roots are pairwise distinct. -/
def queueRootsNodupB (q : List (Int × String)) : Bool :=
  (q.map Prod.snd).Nodup

/-- Every queue entry points at a finite-duration, unheld, explicitly
locked node whose stored expiry matches the entry (spec invariant "a node
appears in the Expiry Queue iff its duration is finite, it is not held,
and it has not yet expired", on the queue-to-node side). -/
def queueConsistentB (s : MemLS) : Bool :=
  s.byExpiry.all (fun p =>
    match find? s.byName p.2 with
    | none => false
    | some n =>
      decide (0 ≤ n.details.duration) && !n.held && decide (n.expiry = p.1) &&
        !(n.token == ""))

/-! ## Operation sequences (for the determinism claim)

A run executes a list of operation descriptions against a state.  Each
description carries the `now` its caller passes; `getByName` carries no
time because the Go method takes none — its sweep samples the wall clock,
modelled by consuming the next entry of an oracle list of instants. -/

inductive WvOp where
  | create (now : Int) (details : LockDetails)
  | refresh (now : Int) (token : String) (duration : Int)
  | unlock (now : Int) (token : String)
  | confirm (now : Int) (name0 name1 : String) (conditions : List Condition)
  | releaseAt (i : Nat)
  | getByName (name : String)
  | delete (now : Int) (name : String)
deriving DecidableEq, Repr

instance {ε α : Type} [DecidableEq ε] [DecidableEq α] : DecidableEq (Except ε α) := fun x y =>
  match x, y with
  | Except.ok a, Except.ok b => decidable_of_iff (a = b) (by simp)
  | Except.ok _, Except.error _ => isFalse (by simp)
  | Except.error _, Except.ok _ => isFalse (by simp)
  | Except.error e, Except.error f => decidable_of_iff (e = f) (by simp)

/-- Observable outcome of one operation. -/
inductive OpOut where
  | created (r : Except WErr String)
  | refreshed (r : Except WErr LockDetails)
  | unlocked (r : Except WErr Unit)
  | confirmed (r : Except WErr (Option String × Option String))
  | released
  | got (r : Except WErr (String × Int × LockDetails))
  | deleted (r : Except WErr Unit)
deriving DecidableEq, Repr

/-- A run's state: the manager plus the release handles returned by the
successful Confirms so far (`releaseAt i` invokes the `i`-th). -/
structure RunState where
  ls : MemLS
  handles : List (Option String × Option String)
deriving DecidableEq, Repr

/-- Execute a list of operations.  `oracle` supplies the wall-clock
instant observed by each successive `getByName` (and by nothing else). -/
def runOps (oracle : List Int) (ops : List WvOp) (st : RunState) :
    List OpOut × RunState :=
  match ops with
  | [] => ([], st)
  | op :: rest =>
    match op with
    | WvOp.create now details =>
      let (res, ls) := Create now details st.ls
      let (outs, st') := runOps oracle rest { st with ls := ls }
      (OpOut.created res :: outs, st')
    | WvOp.refresh now token duration =>
      let (res, ls) := Refresh now token duration st.ls
      let (outs, st') := runOps oracle rest { st with ls := ls }
      (OpOut.refreshed res :: outs, st')
    | WvOp.unlock now token =>
      let (res, ls) := Unlock now token st.ls
      let (outs, st') := runOps oracle rest { st with ls := ls }
      (OpOut.unlocked res :: outs, st')
    | WvOp.confirm now name0 name1 conditions =>
      let (res, ls) := Confirm now name0 name1 conditions st.ls
      let handles := match res with
        | Except.ok h => st.handles ++ [h]
        | Except.error _ => st.handles
      let (outs, st') := runOps oracle rest { ls := ls, handles := handles }
      (OpOut.confirmed res :: outs, st')
    | WvOp.releaseAt i =>
      let ls := release (st.handles.getD i (none, none)) st.ls
      let (outs, st') := runOps oracle rest { st with ls := ls }
      (OpOut.released :: outs, st')
    | WvOp.getByName name =>
      let w := oracle.headD 0
      let (res, ls) := GetByName w name st.ls
      let (outs, st') := runOps oracle.tail rest { st with ls := ls }
      (OpOut.got res :: outs, st')
    | WvOp.delete now name =>
      let (res, ls) := Delete now name st.ls
      let (outs, st') := runOps oracle rest { st with ls := ls }
      (OpOut.deleted res :: outs, st')

/-! ## Concrete fixtures shared by several claims -/

/-- A fresh manager holding one zero-depth infinite lock at `/a`
(token `"1"`). -/
def stZeroA : MemLS :=
  (Create 0 { root := "/a", duration := -1, ownerXML := "", zeroDepth := true }
    (NewMemLS 0)).2

/-- A fresh manager holding one infinite-depth infinite lock at `/a`
(token `"1"`). -/
def stInfA : MemLS :=
  (Create 0 { root := "/a", duration := -1, ownerXML := "", zeroDepth := false }
    (NewMemLS 0)).2

/-- A fresh manager holding one zero-depth infinite lock at `/a/b`
(token `"1"`); the nodes `/a` and `/` exist only as refcount anchors. -/
def stZeroAB : MemLS :=
  (Create 0 { root := "/a/b", duration := -1, ownerXML := "", zeroDepth := true }
    (NewMemLS 0)).2

/-- A fresh manager holding a zero-depth lock at `/a` created at time 10
with finite duration 5 (token `"1"`, expiry 15). -/
def stFinA : MemLS :=
  (Create 10 { root := "/a", duration := 5, ownerXML := "", zeroDepth := true }
    (NewMemLS 0)).2

/-- A fresh manager holding two zero-depth finite-duration locks created
at time 10: token `"1"` at `/a` (duration 5, expiry 15) and token `"2"`
at `/b` (duration 7, expiry 17). -/
def stTwo : MemLS :=
  (Create 10 { root := "/b", duration := 7, ownerXML := "", zeroDepth := true }
    stFinA).2

/-- An operation description is a `getByName` (whose sweep samples the
wall clock instead of taking a caller `now`). -/
def isGetByName : WvOp → Bool
  | WvOp.getByName _ => true
  | _ => false

/-- The state reached by creating a zero-depth lock of finite duration
`D` at `/a` at time `T0` in a fresh manager seeded with 0 (token `"1"`,
expiry `T0 + D`). -/
def oneLockA (T0 D : Int) : MemLS :=
  { byName := [("/", { details := { root := "/", duration := 0, ownerXML := "",
                                    zeroDepth := false },
                       token := "", refCount := 1, expiry := 0, held := false }),
               ("/a", { details := { root := "/a", duration := D, ownerXML := "",
                                     zeroDepth := true },
                        token := "1", refCount := 1, expiry := T0 + D,
                        held := false })],
    byToken := [("1", "/a")], gen := 1, byExpiry := [(T0 + D, "/a")] }

/-! ### Theorems -/

theorem find?_eraseKey {β : Type} (m : List (String × β)) (k k' : String) :
    find? (eraseKey m k) k' = if k' = k then none else find? m k' := by
  induction m with
  | nil => simp [find?, eraseKey]
  | cons p t ih =>
    by_cases h1 : p.1 = k
    · rw [eraseKey, List.filter_cons_of_neg (by simp [h1])]
      rw [eraseKey] at ih
      rw [ih]
      by_cases h2 : k' = k
      · simp [h2]
      · rw [if_neg h2, if_neg h2, find?,
          if_neg (fun hh : p.1 = k' => h2 ((h1.symm.trans hh).symm))]
    · rw [eraseKey, List.filter_cons_of_pos (by simp [h1])]
      rw [find?, eraseKey] at *
      by_cases h2 : p.1 = k'
      · have hk : ¬ (k' = k) := fun hk => h1 (h2.trans hk)
        rw [find?, if_pos h2, if_neg hk, if_pos h2]
      · rw [find?, if_neg h2, ih]
        by_cases h3 : k' = k
        · simp [h3]
        · rw [if_neg h3, if_neg h3, if_neg h2]

theorem find?_insertKey {β : Type} (m : List (String × β)) (k k' : String) (v : β) :
    find? (insertKey m k v) k' = if k' = k then some v else find? m k' := by
  by_cases h : k' = k
  · simp [insertKey, find?, h]
  · rw [insertKey, find?, if_neg (fun hh : k = k' => h hh.symm), find?_eraseKey,
      if_neg h, if_neg h]

theorem find?_updateKey {β : Type} (m : List (String × β)) (k k' : String) (f : β → β) :
    find? (updateKey m k f) k' =
      if k' = k then (find? m k).map f else find? m k' := by
  induction m with
  | nil => simp [find?, updateKey]
  | cons p t ih =>
    rw [updateKey, List.map_cons]
    rw [updateKey] at ih
    by_cases h1 : p.1 = k
    · rw [if_pos h1]
      by_cases h2 : k' = k
      · rw [find?, if_pos (by simpa using h1.trans h2.symm), if_pos h2, find?, if_pos h1]
        simp
      · rw [find?, if_neg (by simpa using fun hh : p.1 = k' => h2 (h1.symm.trans hh).symm),
          ih, if_neg h2, if_neg h2, find?,
          if_neg (fun hh : p.1 = k' => h2 (h1.symm.trans hh).symm)]
    · rw [if_neg h1, find?]
      by_cases h2 : p.1 = k'
      · have hk : ¬ (k' = k) := fun hk => h1 (h2.trans hk)
        rw [if_pos h2, if_neg hk, find?, if_pos h2]
      · rw [if_neg h2, ih]
        by_cases h3 : k' = k
        · rw [if_pos h3, if_pos h3, find?, if_neg h1]
        · rw [if_neg h3, if_neg h3, find?, if_neg h2]

theorem digitsToNat_append_digit (l : List Char) (c : Char) :
    digitsToNat (l ++ [c]) = digitsToNat l * 10 + (c.toNat - 48) := by
  simp [digitsToNat, List.foldl_append]

theorem digitsToNat_formatUintAux (fuel n : Nat) (h : n ≤ fuel) :
    digitsToNat (formatUintAux fuel n) = n := by
  induction fuel using Nat.strong_induction_on generalizing n with
  | _ fuel ih =>
    match fuel, n with
    | 0, n =>
      have hn : n = 0 := Nat.le_zero.mp h
      subst hn
      simp [formatUintAux, digitsToNat]
    | fuel + 1, 0 => simp [formatUintAux, digitsToNat]
    | fuel + 1, n + 1 =>
      rw [show formatUintAux (fuel + 1) (n + 1)
            = formatUintAux fuel ((n + 1) / 10) ++ [Nat.digitChar ((n + 1) % 10)] from rfl,
        digitsToNat_append_digit]
      have hdiv : (n + 1) / 10 ≤ fuel := by
        have h1 : (n + 1) / 10 < n + 1 := Nat.div_lt_self (Nat.succ_pos n) (by norm_num)
        omega
      rw [ih fuel (Nat.lt_succ_self fuel) ((n + 1) / 10) hdiv]
      have hlt : (n + 1) % 10 < 10 := Nat.mod_lt _ (by norm_num)
      have hchar : ∀ d : Nat, d < 10 → (Nat.digitChar d).toNat - 48 = d := by decide
      rw [hchar _ hlt]
      omega

theorem digitsToNat_formatUint (n : Nat) : digitsToNat (formatUint n).data = n := by
  by_cases h : n = 0
  · subst h; decide
  · simp only [formatUint, if_neg h]
    exact digitsToNat_formatUintAux n n (le_refl n)

/-- `strconv.FormatUint` is injective: distinct counters yield distinct
tokens. -/
theorem formatUint_injective : Function.Injective formatUint := by
  intro a b hab
  have := digitsToNat_formatUint a
  rw [hab, digitsToNat_formatUint] at this
  exact this.symm

theorem remove_byExpiry (s : MemLS) (r : String) :
    (remove s r).byExpiry = eraseExpiry s.byExpiry r := by
  unfold remove
  cases find? s.byName r <;> rfl

theorem eraseExpiry_head_lt (e : Int) (r : String) (t : List (Int × String)) :
    (eraseExpiry ((e, r) :: t) r).length < ((e, r) :: t).length := by
  rw [eraseExpiry, List.filter_cons_of_neg (by simp)]
  exact Nat.lt_succ_of_le (List.length_filter_le _ t)

/-! ## Helper lemmas -/

theorem string_mk_eq_iff (l : List Char) (t : String) :
    String.mk l = t ↔ l = t.data := by
  cases t with
  | mk data => simp [String.ext_iff]

theorem parseSeconds_ok (ds : List Char) (hne : ds ≠ [])
    (hdig : ds.all isDigitChar = true) (hle : digitsToNat ds ≤ 2 ^ 32 - 1) :
    parseSeconds ds = Except.ok (Int.ofNat (digitsToNat ds) * 1000000000) := by
  match ds, hne with
  | c :: t, _ =>
    simp only [List.all_cons, Bool.and_eq_true] at hdig
    obtain ⟨hc, ht⟩ := hdig
    have hall : (c :: t).all isDigitChar = true := by simp [List.all_cons, hc, ht]
    rw [parseSeconds]
    rw [if_neg (by simp [hc]), if_neg (by simp [hall])]
    rw [if_neg (by omega), if_neg (by omega)]

theorem parseSeconds_over (ds : List Char) (hgt : 2 ^ 32 - 1 < digitsToNat ds) :
    parseSeconds ds = Except.error WErr.invalidTimeout := by
  match ds with
  | [] => rw [parseSeconds]
  | c :: t =>
    rw [parseSeconds]
    by_cases hc : isDigitChar c = true
    · rw [if_neg (by simp [hc])]
      by_cases hall : (c :: t).all isDigitChar = true
      · rw [if_neg (by simp [hall])]
        by_cases h63 : 2 ^ 63 - 1 < digitsToNat (c :: t)
        · rw [if_pos h63]
        · rw [if_neg h63, if_pos hgt]
      · rw [Bool.not_eq_true] at hall
        rw [if_pos (by simp [hall])]
    · rw [Bool.not_eq_true] at hc
      rw [if_pos (by simp [hc])]

theorem secondDash_ne_infinite (ds : List Char) :
    ('S' :: 'e' :: 'c' :: 'o' :: 'n' :: 'd' :: '-' :: ds) ≠ "Infinite".data := by
  intro h
  have h1 : ('S' : Char) = 'I' := congrArg (fun l => l.headD ' ') h
  exact absurd h1 (by decide)

/-! ## Claim C9 -/

/-- C9: `parseTimeout` considers only the first comma-separated entry of
its input, trimmed of surrounding whitespace; it returns the infinite
sentinel for the empty string and for the literal `"Infinite"`, returns
`n` seconds for `"Second-"` followed by one or more digits whose value `n`
is at most `2^32 − 1` (so `parseTimeout "Second-120"` yields 120 seconds
and `parseTimeout "Second-4294967296"` fails), and fails as a hard error
on every other form, with no partial result. -/
theorem claim9_parseTimeout_spec :
    parseTimeout "" = Except.ok infiniteTimeout ∧
    parseTimeout "Infinite" = Except.ok infiniteTimeout ∧
    parseTimeout "Second-120" = Except.ok (120 * 1000000000) ∧
    parseTimeout "Second-4294967296" = Except.error WErr.invalidTimeout ∧
    parseTimeout "garbage" = Except.error WErr.invalidTimeout ∧
    parseTimeout " Second-7 , Infinite" = Except.ok (7 * 1000000000) ∧
    (∀ s : String, s ≠ "" →
      parseTimeout s = parseTimeoutEntry (trimSpace (firstCommaChunk s))) ∧
    (∀ ds : List Char, ds ≠ [] → ds.all isDigitChar = true →
      digitsToNat ds ≤ 2 ^ 32 - 1 →
      parseTimeoutEntry (String.mk ('S' :: 'e' :: 'c' :: 'o' :: 'n' :: 'd' :: '-' :: ds))
        = Except.ok (Int.ofNat (digitsToNat ds) * 1000000000)) ∧
    (∀ ds : List Char, 2 ^ 32 - 1 < digitsToNat ds →
      parseTimeoutEntry (String.mk ('S' :: 'e' :: 'c' :: 'o' :: 'n' :: 'd' :: '-' :: ds))
        = Except.error WErr.invalidTimeout) := by
  refine ⟨by decide, by decide, by decide, by decide, by decide, by decide, ?_, ?_, ?_⟩
  · intro s hs
    rw [parseTimeout, if_neg hs]
  · intro ds hne hdig hle
    rw [parseTimeoutEntry,
      if_neg (by rw [string_mk_eq_iff]; exact secondDash_ne_infinite ds),
      if_pos (by rfl)]
    exact parseSeconds_ok ds hne hdig hle
  · intro ds hgt
    rw [parseTimeoutEntry,
      if_neg (by rw [string_mk_eq_iff]; exact secondDash_ne_infinite ds),
      if_pos (by rfl)]
    exact parseSeconds_over ds hgt

/-- Witness for C9: the general conjuncts applied at `s = "x,y"` and at
the digit string `"120"`. -/
theorem claim9_parseTimeout_spec_witness :
    parseTimeout "x,y" = parseTimeoutEntry (trimSpace (firstCommaChunk "x,y")) ∧
    parseTimeoutEntry (String.mk
        ['S', 'e', 'c', 'o', 'n', 'd', '-', '1', '2', '0'])
      = Except.ok (Int.ofNat (digitsToNat ['1', '2', '0']) * 1000000000) :=
  ⟨claim9_parseTimeout_spec.2.2.2.2.2.2.1 "x,y" (by decide),
   claim9_parseTimeout_spec.2.2.2.2.2.2.2.1 ['1', '2', '0'] (by decide) (by decide)
     (by decide)⟩

/-! ## Claim C10 -/

/-- C10: Create is atomic on failure — whenever `Create` returns an
error, the error is `ErrLocked` and the resulting state is exactly the
state left by the initial expiry sweep: no node or refcount change, the
token counter is not advanced, no token is registered, and the expiry
queue is unchanged. -/
theorem claim10_create_atomic_on_failure (now : Int) (details : LockDetails)
    (s s' : MemLS) (e : WErr)
    (h : Create now details s = (Except.error e, s')) :
    e = WErr.locked ∧ s' = collectExpiredNodes now s ∧
      s'.byName = (collectExpiredNodes now s).byName ∧
      s'.byToken = (collectExpiredNodes now s).byToken ∧
      s'.gen = (collectExpiredNodes now s).gen ∧
      s'.byExpiry = (collectExpiredNodes now s).byExpiry := by
  rw [Create, CreatePost] at h
  split at h
  · exact absurd (congrArg Prod.fst h) (by simp)
  · simp only [Prod.mk.injEq, Except.error.injEq] at h
    obtain ⟨he, hs⟩ := h
    exact ⟨he.symm, hs.symm, by rw [hs], by rw [hs], by rw [hs], by rw [hs]⟩

/-- Witness for C10: a second `Create` at the already-locked path `/a`
fails with `Locked` and leaves the swept state untouched. -/
theorem claim10_create_atomic_on_failure_witness :
    WErr.locked = WErr.locked ∧ stZeroA = collectExpiredNodes 0 stZeroA ∧
      stZeroA.byName = (collectExpiredNodes 0 stZeroA).byName ∧
      stZeroA.byToken = (collectExpiredNodes 0 stZeroA).byToken ∧
      stZeroA.gen = (collectExpiredNodes 0 stZeroA).gen ∧
      stZeroA.byExpiry = (collectExpiredNodes 0 stZeroA).byExpiry :=
  claim10_create_atomic_on_failure 0
    { root := "/a", duration := -1, ownerXML := "", zeroDepth := true }
    stZeroA stZeroA WErr.locked (by decide)

/-! ## Claim C1 -/

/-- C1 (exhibit of the code defect): starting from a fresh manager,
`Create` a zero-depth lock at `/a/b` (so `/a` and `/` exist only as
refcount anchors and the tree invariants hold), then `Delete` at `/a` — a
path whose node carries no token.  The call reports success, yet it leaves
the lock at `/a/b` in place while destroying the anchor chain: `/a` and
`/` disappear from the name index although an explicitly locked descendant
remains below them, so the refcount invariant is broken, and a subsequent
infinite-depth `Create` at `/a` succeeds, producing a state in which two
locks with overlapping subtrees coexist (hierarchical exclusivity of §4.2
is violated).  The spec's invariants therefore do not survive `Delete` on
a descendant-refcount anchor. -/
theorem claim1_delete_anchor_corrupts_invariants :
    treeInvariantB stZeroAB = true ∧
    hierarchicalExclusivityB stZeroAB = true ∧
    (Delete 0 "/a" stZeroAB).1 = Except.ok () ∧
    ((find? (Delete 0 "/a" stZeroAB).2.byName "/a/b").map MemLSNode.token
      = some "1") ∧
    find? (Delete 0 "/a" stZeroAB).2.byName "/a" = none ∧
    find? (Delete 0 "/a" stZeroAB).2.byName "/" = none ∧
    treeInvariantB (Delete 0 "/a" stZeroAB).2 = false ∧
    (Create 0 { root := "/a", duration := -1, ownerXML := "", zeroDepth := false }
        (Delete 0 "/a" stZeroAB).2).1 = Except.ok "2" ∧
    hierarchicalExclusivityB
      (Create 0 { root := "/a", duration := -1, ownerXML := "", zeroDepth := false }
        (Delete 0 "/a" stZeroAB).2).2 = false := by
  refine ⟨by decide, by decide, by decide, by decide, by decide, by decide, by decide,
    by decide, by decide⟩

/-! ## Claim C2 -/

/-- Counterexample to C2 as stated: with only a zero-depth lock at `/a`,
the claim says `GetByName "/a/b/c"` fails with `NoSuchLock`; the code
instead returns `/a`'s token and details (`GetByName` never consults
`ZeroDepth`). -/
theorem claim2_zero_depth_ancestor_counterexample :
    (GetByName 0 "/a/b/c" stZeroA).1
      = Except.ok ("1", 0, { root := "/a", duration := -1, ownerXML := "", zeroDepth := true }) ∧
    (GetByName 0 "/a/b/c" stZeroA).1 ≠ Except.error WErr.noSuchLock :=
  ⟨by decide, by decide⟩

theorem getByNameLoop_eq_firstLockedLevel (s : MemLS) (fuel : Nat) (name : String) :
    getByNameLoop s (pathLevelsFuel fuel name) =
      (match firstLockedLevel s (pathLevelsFuel fuel name) with
       | some (_, n) => Except.ok (n.token, n.expiry, n.details)
       | none => Except.error WErr.noSuchLock) := by
  induction fuel generalizing name with
  | zero => rfl
  | succ fuel ih =>
    rw [pathLevelsFuel]
    by_cases h : name = "/"
    · rw [if_pos h]
      cases hfind : find? s.byName "/" with
      | none => simp [getByNameLoop, firstLockedLevel, hfind]
      | some n =>
        by_cases ht : n.token = ""
        · simp [getByNameLoop, firstLockedLevel, hfind, ht]
        · simp [getByNameLoop, firstLockedLevel, hfind, ht]
    · rw [if_neg h]
      cases hfind : find? s.byName name with
      | none => simp [getByNameLoop, firstLockedLevel, hfind, h, ih]
      | some n =>
        by_cases ht : n.token = ""
        · simp [getByNameLoop, firstLockedLevel, hfind, ht, h, ih]
        · simp [getByNameLoop, firstLockedLevel, hfind, ht]

/-- C2 as amended: `GetByName` walks from the normalized name upward
through parent directories and reports the nearest node carrying a
non-empty token, regardless of that lock's depth.  When only an
infinite-depth lock exists at the ancestor `/a`, a query for `/a/b/c`
returns `/a`'s token and details; when `/a` instead holds a zero-depth
lock, the same query also returns `/a`'s token and details (not
`NoSuchLock`). -/
theorem claim2_getByName_nearest_regardless_of_depth :
    (GetByName 0 "/a/b/c" stInfA).1
      = Except.ok ("1", 0, { root := "/a", duration := -1, ownerXML := "", zeroDepth := false }) ∧
    (GetByName 0 "/a/b/c" stZeroA).1
      = Except.ok ("1", 0, { root := "/a", duration := -1, ownerXML := "", zeroDepth := true }) ∧
    (∀ (wallNow : Int) (name : String) (s : MemLS),
      (GetByName wallNow name s).1 =
        (match firstLockedLevel (collectExpiredNodes wallNow s)
            (pathLevels (slashClean name)) with
         | some (_, n) => Except.ok (n.token, n.expiry, n.details)
         | none => Except.error WErr.noSuchLock)) := by
  refine ⟨by decide, by decide, ?_⟩
  intro wallNow name s
  exact getByNameLoop_eq_firstLockedLevel (collectExpiredNodes wallNow s)
    (slashClean name).length.succ (slashClean name)

/-! ## Claim C4 -/

theorem lookup_eq_specResolve (s : MemLS) (name : String) (conds : List Condition) :
    lookup s name conds = specResolve s name conds := by
  induction conds with
  | nil => rfl
  | cons c rest ih =>
    rw [lookup, specResolve]
    cases htok : find? s.byToken c.token with
    | none => simp [condMatches, htok, ih]
    | some r =>
      cases hn : find? s.byName r with
      | none => simp [condMatches, htok, hn, ih]
      | some n =>
        by_cases hheld : n.held
        · simp [condMatches, htok, hn, hheld, ih]
        · by_cases hexact : name = n.details.root
          · simp [condMatches, htok, hn, hheld, hexact, specMatchesName]
          · by_cases hzero : n.details.zeroDepth
            · simp [condMatches, htok, hn, hheld, hexact, hzero, specMatchesName, ih,
                Ne.symm hexact]
            · by_cases hroot : n.details.root = "/"
              · simp [condMatches, htok, hn, hheld, hexact, hzero, hroot, specMatchesName]
              · by_cases hpre : strLeads (n.details.root ++ "/") name = true
                · simp [condMatches, htok, hn, hheld, hexact, hzero, hroot, hpre,
                    specMatchesName]
                · simp [condMatches, htok, hn, hheld, hexact, hzero, hroot, hpre,
                    specMatchesName, ih, Ne.symm hexact, Ne.symm hroot]

theorem lookup_tokens_only (s : MemLS) (name : String)
    (conds conds' : List Condition)
    (h : conds.map Condition.token = conds'.map Condition.token) :
    lookup s name conds = lookup s name conds' := by
  induction conds generalizing conds' with
  | nil =>
    cases conds' with
    | nil => rfl
    | cons => simp at h
  | cons c rest ih =>
    cases conds' with
    | nil => simp at h
    | cons c' rest' =>
      simp only [List.map_cons, List.cons.injEq] at h
      obtain ⟨h1, h2⟩ := h
      have hrec := ih rest' h2
      rw [lookup, lookup, h1, hrec]

theorem confirm_tokens_only (now : Int) (name0 name1 : String)
    (conds conds' : List Condition) (s : MemLS)
    (h : conds.map Condition.token = conds'.map Condition.token) :
    Confirm now name0 name1 conds s = Confirm now name0 name1 conds' s := by
  have hres : ∀ nm, resolveName (collectExpiredNodes now s) nm conds
      = resolveName (collectExpiredNodes now s) nm conds' := by
    intro nm
    rw [resolveName, resolveName,
      lookup_tokens_only (collectExpiredNodes now s) (slashClean nm) conds conds' h]
  rw [Confirm, Confirm, ConfirmPost, ConfirmPost, hres name0, hres name1]

theorem resolveName_error_is_confirmationFailed (s : MemLS) (name : String)
    (conds : List Condition) (e : WErr)
    (h : resolveName s name conds = Except.error e) : e = WErr.confirmationFailed := by
  rw [resolveName] at h
  by_cases h0 : name = ""
  · rw [if_pos h0] at h
    exact absurd h (by simp)
  · rw [if_neg h0] at h
    cases hl : lookup s (slashClean name) conds with
    | none =>
      rw [hl] at h
      injection h with he
      exact he.symm
    | some p =>
      rw [hl] at h
      exact absurd h (by simp)

theorem confirm_fails_without_match (now : Int) (name0 name1 : String)
    (conds : List Condition) (s : MemLS)
    (h : (name0 ≠ "" ∧ lookup (collectExpiredNodes now s) (slashClean name0) conds = none)
       ∨ (name1 ≠ "" ∧ lookup (collectExpiredNodes now s) (slashClean name1) conds = none)) :
    Confirm now name0 name1 conds s
      = (Except.error WErr.confirmationFailed, collectExpiredNodes now s) := by
  rcases h with ⟨hne, hl⟩ | ⟨hne, hl⟩
  · have h0 : resolveName (collectExpiredNodes now s) name0 conds
        = Except.error WErr.confirmationFailed := by
      rw [resolveName, if_neg hne, hl]
    rw [Confirm, ConfirmPost, h0]
  · have h1 : resolveName (collectExpiredNodes now s) name1 conds
        = Except.error WErr.confirmationFailed := by
      rw [resolveName, if_neg hne, hl]
    cases hr0 : resolveName (collectExpiredNodes now s) name0 conds with
    | error e =>
      have he := resolveName_error_is_confirmationFailed _ _ _ _ hr0
      rw [Confirm, ConfirmPost, hr0, he]
    | ok r0 =>
      rw [Confirm, ConfirmPost, hr0, h1]

/-- C4: for every `Confirm` call with up to two names (empty names
ignored) and a list of conditions, each non-empty name is resolved to the
node of the first condition in list order whose token names a non-held
node matching the name, where a node matches iff its root equals the
name, or the node has infinite depth and its root is `"/"` or
`root + "/"` is a leading part of the name (so a zero-depth lock never
matches a strict descendant); if a non-empty name has no matching
condition, `Confirm` returns `ConfirmationFailed` and holds nothing (the
state stays the swept state); and the `Not`/`ETag` fields never influence
the result — `lookup` and `Confirm` are determined by the `Token` fields
alone. -/
theorem claim4_confirm_lookup_spec :
    (∀ (s : MemLS) (name : String) (conds : List Condition),
      lookup s name conds = specResolve s name conds) ∧
    (∀ (now : Int) (name0 name1 : String) (conds : List Condition) (s : MemLS),
      (name0 ≠ "" ∧ lookup (collectExpiredNodes now s) (slashClean name0) conds = none)
        ∨ (name1 ≠ "" ∧ lookup (collectExpiredNodes now s) (slashClean name1) conds = none) →
      Confirm now name0 name1 conds s
        = (Except.error WErr.confirmationFailed, collectExpiredNodes now s)) ∧
    (∀ (s : MemLS) (name : String) (conds conds' : List Condition),
      conds.map Condition.token = conds'.map Condition.token →
      lookup s name conds = lookup s name conds') ∧
    (∀ (now : Int) (name0 name1 : String) (conds conds' : List Condition) (s : MemLS),
      conds.map Condition.token = conds'.map Condition.token →
      Confirm now name0 name1 conds s = Confirm now name0 name1 conds' s) :=
  ⟨lookup_eq_specResolve,
   fun now name0 name1 conds s h => confirm_fails_without_match now name0 name1 conds s h,
   fun s name conds conds' h => lookup_tokens_only s name conds conds' h,
   fun now name0 name1 conds conds' s h => confirm_tokens_only now name0 name1 conds conds' s h⟩

/-- Witness for C4: a confirm against an unknown token fails with
`ConfirmationFailed`, and replacing `Not`/`ETag` fields leaves `Confirm`
unchanged, at concrete inputs. -/
theorem claim4_confirm_lookup_spec_witness :
    Confirm 0 "/x" "" [{ negate := false, token := "9", etag := "" }] stZeroA
      = (Except.error WErr.confirmationFailed, collectExpiredNodes 0 stZeroA) ∧
    Confirm 0 "/a" "" [{ negate := false, token := "1", etag := "" }] stZeroA
      = Confirm 0 "/a" "" [{ negate := true, token := "1", etag := "W/\x22x\x22" }] stZeroA :=
  ⟨claim4_confirm_lookup_spec.2.1 0 "/x" "" [{ negate := false, token := "9", etag := "" }]
      stZeroA (Or.inl ⟨by decide, by decide⟩),
   claim4_confirm_lookup_spec.2.2.2 0 "/a" ""
      [{ negate := false, token := "1", etag := "" }]
      [{ negate := true, token := "1", etag := "W/\x22x\x22" }] stZeroA (by decide)⟩

/-! ## Helper lemmas about removal, the sweep and the queue -/

theorem find?_none_decRefAt (m : List (String × MemLSNode)) (l r : String)
    (h : find? m r = none) : find? (decRefAt m l) r = none := by
  cases hl : find? m l with
  | none => simp only [decRefAt, hl]; exact h
  | some x =>
    simp only [decRefAt, hl]
    by_cases hz : x.refCount - 1 = 0
    · rw [if_pos hz, find?_eraseKey]
      by_cases hrl : r = l
      · rw [if_pos hrl]
      · rw [if_neg hrl]; exact h
    · rw [if_neg hz, find?_updateKey]
      by_cases hrl : r = l
      · rw [if_pos hrl, ← hrl, h]; rfl
      · rw [if_neg hrl]; exact h

theorem find?_none_foldl_decRefAt (levels : List String)
    (m : List (String × MemLSNode)) (r : String) (h : find? m r = none) :
    find? (levels.foldl decRefAt m) r = none := by
  induction levels generalizing m with
  | nil => exact h
  | cons l t ih => exact ih _ (find?_none_decRefAt m l r h)

/-- `decRefAt` only ever deletes an entry or decrements its refcount: the
token, details, expiry and held flag of a surviving entry are unchanged. -/
theorem find?_some_decRefAt (m : List (String × MemLSNode)) (l r : String)
    (n : MemLSNode) (h : find? m r = some n) :
    find? (decRefAt m l) r = none ∨
      ∃ k, find? (decRefAt m l) r = some { n with refCount := k } := by
  cases hl : find? m l with
  | none => exact Or.inr ⟨n.refCount, by simp only [decRefAt, hl]; rw [h]⟩
  | some x =>
    simp only [decRefAt, hl]
    by_cases hz : x.refCount - 1 = 0
    · rw [if_pos hz, find?_eraseKey]
      by_cases hrl : r = l
      · exact Or.inl (by rw [if_pos hrl])
      · exact Or.inr ⟨n.refCount, by rw [if_neg hrl, h]⟩
    · rw [if_neg hz, find?_updateKey]
      by_cases hrl : r = l
      · exact Or.inr ⟨n.refCount - 1, by rw [if_pos hrl, ← hrl, h]; rfl⟩
      · exact Or.inr ⟨n.refCount, by rw [if_neg hrl, h]⟩

theorem find?_some_foldl_decRefAt (levels : List String)
    (m : List (String × MemLSNode)) (r : String) (n : MemLSNode)
    (h : find? m r = some n) :
    find? (levels.foldl decRefAt m) r = none ∨
      ∃ k, find? (levels.foldl decRefAt m) r = some { n with refCount := k } := by
  induction levels generalizing m n with
  | nil => exact Or.inr ⟨n.refCount, by simp only [List.foldl_nil]; rw [h]⟩
  | cons l t ih =>
    simp only [List.foldl_cons]
    rcases find?_some_decRefAt m l r n h with hnone | ⟨k, hsome⟩
    · exact Or.inl (find?_none_foldl_decRefAt t _ r hnone)
    · rcases ih _ _ hsome with hnone | ⟨k', hsome'⟩
      · exact Or.inl hnone
      · exact Or.inr ⟨k', by rw [hsome']⟩

theorem remove_byToken_none (s : MemLS) (r t : String)
    (h : find? s.byToken t = none) : find? (remove s r).byToken t = none := by
  cases hn : find? s.byName r with
  | none => simp only [remove, hn]; exact h
  | some n =>
    simp only [remove, hn]
    rw [find?_eraseKey]
    by_cases ht : t = n.token
    · rw [if_pos ht]
    · rw [if_neg ht]; exact h

theorem collectAux_byToken_none (fuel : Nat) (now : Int) (s : MemLS) (t : String)
    (h : find? s.byToken t = none) :
    find? (collectAux fuel now s).byToken t = none := by
  induction fuel generalizing s with
  | zero => exact h
  | succ fuel ih =>
    cases hq : s.byExpiry with
    | nil => simp only [collectAux, hq]; exact h
    | cons p rest =>
      obtain ⟨e, r⟩ := p
      simp only [collectAux, hq]
      by_cases hlt : now < e
      · rw [if_pos hlt]; exact h
      · rw [if_neg hlt]; exact ih _ (remove_byToken_none s r t h)

theorem collect_byToken_none (now : Int) (s : MemLS) (t : String)
    (h : find? s.byToken t = none) :
    find? (collectExpiredNodes now s).byToken t = none :=
  collectAux_byToken_none _ now s t h

theorem mem_pushExpiry (e : Int) (r : String) (q : List (Int × String)) :
    (e, r) ∈ pushExpiry e r q := by
  induction q with
  | nil => simp [pushExpiry]
  | cons p t ih =>
    obtain ⟨e', r'⟩ := p
    rw [pushExpiry]
    by_cases h : e' ≤ e
    · rw [if_pos h]; exact List.mem_cons_of_mem _ ih
    · rw [if_neg h]; exact List.mem_cons_self _ _

theorem not_mem_eraseExpiry (q : List (Int × String)) (r : String) (e : Int) :
    (e, r) ∉ eraseExpiry q r := by
  simp [eraseExpiry, List.mem_filter]

/-! ## Claim C6 -/

/-- C6: `Refresh(now, token, duration)` fails with `NoSuchLock` when the
token is unknown and with `Locked` when the token's node is held;
otherwise it removes any expiry-queue entry, sets the new duration,
re-inserts with expiry `now + duration` if the duration is finite, and
returns the updated details.  `Unlock(now, token)` fails with
`NoSuchLock` when unknown and `Locked` when held, and otherwise fully
removes the lock (token deregistered, queue entry dropped, the node gone
or reduced to a token-less anchor); a first `Unlock` of a live token
succeeds and a repeated `Unlock` of the same token fails with
`NoSuchLock`.  (All hypotheses are phrased on the state left by the
call's opening expiry sweep.) -/
theorem claim6_refresh_unlock_errors :
    (∀ (now : Int) (token : String) (dur : Int) (s : MemLS),
      find? (collectExpiredNodes now s).byToken token = none →
      Refresh now token dur s
        = (Except.error WErr.noSuchLock, collectExpiredNodes now s)) ∧
    (∀ (now : Int) (token : String) (dur : Int) (s : MemLS) (r : String) (n : MemLSNode),
      find? (collectExpiredNodes now s).byToken token = some r →
      find? (collectExpiredNodes now s).byName r = some n →
      n.held = true →
      Refresh now token dur s
        = (Except.error WErr.locked, collectExpiredNodes now s)) ∧
    (∀ (now : Int) (token : String) (dur : Int) (s : MemLS) (r : String) (n : MemLSNode),
      find? (collectExpiredNodes now s).byToken token = some r →
      find? (collectExpiredNodes now s).byName r = some n →
      n.held = false →
      (Refresh now token dur s).1 = Except.ok { n.details with duration := dur } ∧
      find? (Refresh now token dur s).2.byName r
        = some { n with details := { n.details with duration := dur },
                        expiry := if 0 ≤ dur then now + dur else n.expiry } ∧
      (Refresh now token dur s).2.byToken = (collectExpiredNodes now s).byToken ∧
      (0 ≤ dur → (now + dur, r) ∈ (Refresh now token dur s).2.byExpiry) ∧
      (¬ 0 ≤ dur → ∀ e, (e, r) ∉ (Refresh now token dur s).2.byExpiry)) ∧
    (∀ (now : Int) (token : String) (s : MemLS),
      find? (collectExpiredNodes now s).byToken token = none →
      Unlock now token s
        = (Except.error WErr.noSuchLock, collectExpiredNodes now s)) ∧
    (∀ (now : Int) (token : String) (s : MemLS) (r : String) (n : MemLSNode),
      find? (collectExpiredNodes now s).byToken token = some r →
      find? (collectExpiredNodes now s).byName r = some n →
      n.held = true →
      Unlock now token s
        = (Except.error WErr.locked, collectExpiredNodes now s)) ∧
    (∀ (now now₂ : Int) (token : String) (s : MemLS) (r : String) (n : MemLSNode),
      find? (collectExpiredNodes now s).byToken token = some r →
      find? (collectExpiredNodes now s).byName r = some n →
      n.held = false → n.token = token →
      Unlock now token s = (Except.ok (), remove (collectExpiredNodes now s) r) ∧
      find? (remove (collectExpiredNodes now s) r).byToken token = none ∧
      (∀ e, (e, r) ∉ (remove (collectExpiredNodes now s) r).byExpiry) ∧
      (find? (remove (collectExpiredNodes now s) r).byName r = none ∨
        ∃ n', find? (remove (collectExpiredNodes now s) r).byName r = some n'
          ∧ n'.token = "") ∧
      Unlock now₂ token (remove (collectExpiredNodes now s) r)
        = (Except.error WErr.noSuchLock,
            collectExpiredNodes now₂ (remove (collectExpiredNodes now s) r))) := by
  refine ⟨?_, ?_, ?_, ?_, ?_, ?_⟩
  · intro now token dur s h
    simp only [Refresh, RefreshPost, h]
  · intro now token dur s r n h1 h2 hheld
    simp only [Refresh, RefreshPost, h1, h2, hheld, if_pos]
  · intro now token dur s r n h1 h2 hheld
    have hR1 : (Refresh now token dur s).1 = Except.ok { n.details with duration := dur } := by
      simp only [Refresh, RefreshPost, h1, h2, hheld]
      rw [if_neg (by simp)]
    have hR2 : (Refresh now token dur s).2.byName
        = updateKey (collectExpiredNodes now s).byName r
            (fun x => { x with
                details := { n.details with duration := dur },
                expiry := if 0 ≤ dur then now + dur else n.expiry }) := by
      simp only [Refresh, RefreshPost, h1, h2, hheld]
      rw [if_neg (by simp)]
    have hR3 : (Refresh now token dur s).2.byToken
        = (collectExpiredNodes now s).byToken := by
      simp only [Refresh, RefreshPost, h1, h2, hheld]
      rw [if_neg (by simp)]
    have hR4 : (Refresh now token dur s).2.byExpiry
        = (if 0 ≤ dur then
             pushExpiry (if 0 ≤ dur then now + dur else n.expiry) r
               (eraseExpiry (collectExpiredNodes now s).byExpiry r)
           else eraseExpiry (collectExpiredNodes now s).byExpiry r) := by
      simp only [Refresh, RefreshPost, h1, h2, hheld]
      rw [if_neg (by simp)]
    refine ⟨hR1, ?_, hR3, ?_, ?_⟩
    · rw [hR2, find?_updateKey, if_pos rfl, h2]
      rfl
    · intro hdur
      rw [hR4, if_pos hdur, if_pos hdur]
      exact mem_pushExpiry _ _ _
    · intro hdur e
      rw [hR4, if_neg hdur]
      exact not_mem_eraseExpiry _ _ _
  · intro now token s h
    simp only [Unlock, UnlockPost, h]
  · intro now token s r n h1 h2 hheld
    simp only [Unlock, UnlockPost, h1, h2, hheld, if_pos]
  · intro now now₂ token s r n h1 h2 hheld htok
    have hU : Unlock now token s = (Except.ok (), remove (collectExpiredNodes now s) r) := by
      simp only [Unlock, UnlockPost, h1, h2, hheld]
      rw [if_neg (by simp)]
    have hTok : find? (remove (collectExpiredNodes now s) r).byToken token = none := by
      simp only [remove, h2]
      rw [find?_eraseKey, htok, if_pos rfl]
    refine ⟨hU, hTok, ?_, ?_, ?_⟩
    · intro e
      rw [remove_byExpiry]
      exact not_mem_eraseExpiry _ _ _
    · simp only [remove, h2]
      have hbase : find? (updateKey (collectExpiredNodes now s).byName r
          (fun x => { x with token := "" })) r = some { n with token := "" } := by
        rw [find?_updateKey, if_pos rfl, h2]
        rfl
      rcases find?_some_foldl_decRefAt (pathLevels n.details.root) _ r _ hbase with
        hnone | ⟨k, hsome⟩
      · exact Or.inl hnone
      · exact Or.inr ⟨{ n with token := "", refCount := k }, hsome, rfl⟩
    · simp only [Unlock, UnlockPost, collect_byToken_none now₂ _ token hTok]

/-- Witness for C6: on the fixture with the finite-duration lock `"1"` at
`/a`, refreshing an unknown token fails with `NoSuchLock`, a first
`Unlock` of token `"1"` succeeds and fully removes the lock, and a second
`Unlock` of the same token fails with `NoSuchLock`. -/
theorem claim6_refresh_unlock_errors_witness :
    Refresh 3 "9" 7 stFinA = (Except.error WErr.noSuchLock, collectExpiredNodes 3 stFinA) ∧
    (Unlock 3 "1" stFinA = (Except.ok (), remove (collectExpiredNodes 3 stFinA) "/a") ∧
      find? (remove (collectExpiredNodes 3 stFinA) "/a").byToken "1" = none ∧
      (∀ e, (e, "/a") ∉ (remove (collectExpiredNodes 3 stFinA) "/a").byExpiry) ∧
      (find? (remove (collectExpiredNodes 3 stFinA) "/a").byName "/a" = none ∨
        ∃ n', find? (remove (collectExpiredNodes 3 stFinA) "/a").byName "/a" = some n'
          ∧ n'.token = "") ∧
      Unlock 4 "1" (remove (collectExpiredNodes 3 stFinA) "/a")
        = (Except.error WErr.noSuchLock,
            collectExpiredNodes 4 (remove (collectExpiredNodes 3 stFinA) "/a"))) :=
  ⟨claim6_refresh_unlock_errors.1 3 "9" 7 stFinA (by decide),
   claim6_refresh_unlock_errors.2.2.2.2.2 3 4 "1" stFinA "/a"
     { details := { root := "/a", duration := 5, ownerXML := "", zeroDepth := true },
       token := "1", refCount := 1, expiry := 15, held := false }
     (by decide) (by decide) (by decide) (by decide)⟩

/-! ## Claim C3 -/

theorem pathLevels_cons (root : String) : ∃ t, pathLevels root = root :: t := by
  rw [pathLevels, pathLevelsFuel]
  by_cases h : root = "/"
  · rw [if_pos h, h]
    exact ⟨[], rfl⟩
  · rw [if_neg h]
    exact ⟨_, rfl⟩

theorem checkLevel_first_eq_true (s : MemLS) (zd : Bool) (root : String) :
    checkLevel s zd true root = true ↔
      ¬((∃ n, find? s.byName root = some n ∧ n.token ≠ "") ∨
        ((∃ n, find? s.byName root = some n) ∧ zd = false)) := by
  cases hn : find? s.byName root with
  | none => simp [checkLevel, hn]
  | some n =>
    by_cases ht : n.token = ""
    · cases zd with
      | true => simp [checkLevel, hn, ht]
      | false => simp [checkLevel, hn, ht]
    · simp [checkLevel, hn, ht]

theorem checkLevel_rest_eq_true (s : MemLS) (zd : Bool) (p : String) :
    checkLevel s zd false p = true ↔
      ¬(∃ n, find? s.byName p = some n ∧ n.token ≠ "" ∧
          n.details.zeroDepth = false) := by
  cases hn : find? s.byName p with
  | none => simp [checkLevel, hn]
  | some n =>
    by_cases ht : n.token = ""
    · simp [checkLevel, hn, ht]
    · cases hz : n.details.zeroDepth with
      | true => simp [checkLevel, hn, ht, hz]
      | false => simp [checkLevel, hn, ht, hz]

theorem canCreate_false_iff (s : MemLS) (root : String) (zd : Bool) :
    canCreate s root zd = false ↔
      ((∃ n, find? s.byName root = some n ∧ n.token ≠ "") ∨
       ((∃ n, find? s.byName root = some n) ∧ zd = false) ∨
       (∃ p ∈ (pathLevels root).tail, ∃ n, find? s.byName p = some n ∧
          n.token ≠ "" ∧ n.details.zeroDepth = false)) := by
  obtain ⟨tl, htl⟩ := pathLevels_cons root
  have hc : canCreate s root zd
      = (checkLevel s zd true root && tl.all (checkLevel s zd false)) := by
    simp only [canCreate, htl]
  have htail : (pathLevels root).tail = tl := by rw [htl]; rfl
  rw [hc, htail]
  have key : (checkLevel s zd true root && tl.all (checkLevel s zd false)) = false
      ↔ ¬(checkLevel s zd true root = true ∧
            ∀ p ∈ tl, checkLevel s zd false p = true) := by
    rw [Bool.eq_false_iff]
    simp [List.all_eq_true]
  rw [key]
  constructor
  · intro h
    rcases not_and_or.mp h with hA | hB
    · rcases not_not.mp (by
        intro hno
        exact hA ((checkLevel_first_eq_true s zd root).mpr hno)) with h' | h'
      · exact Or.inl h'
      · exact Or.inr (Or.inl h')
    · push_neg at hB
      obtain ⟨p, hp, hcp⟩ := hB
      have hE : ∃ n, find? s.byName p = some n ∧ n.token ≠ "" ∧
          n.details.zeroDepth = false := by
        by_contra hne
        exact hcp ((checkLevel_rest_eq_true s zd p).mpr hne)
      exact Or.inr (Or.inr ⟨p, hp, hE⟩)
  · intro h hand
    obtain ⟨hfirst, hall⟩ := hand
    rcases h with h' | h' | ⟨p, hp, hE⟩
    · exact (checkLevel_first_eq_true s zd root).mp hfirst (Or.inl h')
    · exact (checkLevel_first_eq_true s zd root).mp hfirst (Or.inr h')
    · exact (checkLevel_rest_eq_true s zd p).mp (hall p hp) hE

theorem find?_eq_none_of_keys {β : Type} (m : List (String × β)) (t : String)
    (h : ∀ p ∈ m, p.1 ≠ t) : find? m t = none := by
  induction m with
  | nil => rfl
  | cons p rest ih =>
    rw [find?, if_neg (h p (List.mem_cons_self _ _))]
    exact ih (fun q hq => h q (List.mem_cons_of_mem _ hq))

/-- C3: `Create(now, details)` fails with `Locked` exactly when, on the
swept state and the normalized root: the target path already carries an
explicit token, or a node exists at the target path and the requested
depth is infinite, or some strict ancestor of the target carries an
explicit infinite-depth token.  When `canCreate` accepts, `Create`
succeeds and returns the token of the advanced counter — a token distinct
from every token registered so far (freshness, given that the registered
tokens all come from earlier counter values).  Consequently two
zero-depth locks at parent/child paths `/a` and `/a/b` may coexist, a
second lock at the identical path fails, and an infinite-depth lock at
`/a` blocks creating any lock at `/a/b` or `/a/c/d`. -/
theorem claim3_create_locked_characterization :
    (∀ (now : Int) (details : LockDetails) (s : MemLS),
      (Create now details s).1 = Except.error WErr.locked ↔
        ((∃ n, find? (collectExpiredNodes now s).byName (slashClean details.root)
            = some n ∧ n.token ≠ "") ∨
         ((∃ n, find? (collectExpiredNodes now s).byName (slashClean details.root)
            = some n) ∧ details.zeroDepth = false) ∨
         (∃ p ∈ (pathLevels (slashClean details.root)).tail,
            ∃ n, find? (collectExpiredNodes now s).byName p = some n ∧
              n.token ≠ "" ∧ n.details.zeroDepth = false))) ∧
    (∀ (now : Int) (details : LockDetails) (s : MemLS),
      canCreate (collectExpiredNodes now s) (slashClean details.root)
          details.zeroDepth = true →
      (Create now details s).1
          = Except.ok (formatUint ((collectExpiredNodes now s).gen + 1)) ∧
      (Create now details s).2.gen = (collectExpiredNodes now s).gen + 1) ∧
    (∀ (now : Int) (s : MemLS),
      (∀ p ∈ (collectExpiredNodes now s).byToken,
        ∃ k ≤ (collectExpiredNodes now s).gen, p.1 = formatUint k) →
      find? (collectExpiredNodes now s).byToken
          (formatUint ((collectExpiredNodes now s).gen + 1)) = none) ∧
    (Create 0 { root := "/a/b", duration := -1, ownerXML := "", zeroDepth := true }
        stZeroA).1 = Except.ok "2" ∧
    (Create 0 { root := "/a", duration := -1, ownerXML := "", zeroDepth := true }
        stZeroA).1 = Except.error WErr.locked ∧
    (Create 0 { root := "/a/b", duration := -1, ownerXML := "", zeroDepth := true }
        stInfA).1 = Except.error WErr.locked ∧
    (Create 0 { root := "/a/c/d", duration := -1, ownerXML := "", zeroDepth := true }
        stInfA).1 = Except.error WErr.locked := by
  refine ⟨?_, ?_, ?_, by decide, by decide, by decide, by decide⟩
  · intro now details s
    by_cases hc : canCreate (collectExpiredNodes now s) (slashClean details.root)
        details.zeroDepth = true
    · have h1 : (Create now details s).1
          = Except.ok (formatUint ((collectExpiredNodes now s).gen + 1)) := by
        simp only [Create, CreatePost]
        rw [if_pos hc]
      rw [h1, ← canCreate_false_iff]
      simp [hc]
    · have hc' : canCreate (collectExpiredNodes now s) (slashClean details.root)
          details.zeroDepth = false := Bool.eq_false_iff.mpr hc
      have h1 : (Create now details s).1 = Except.error WErr.locked := by
        simp only [Create, CreatePost]
        rw [if_neg hc]
      rw [h1, ← canCreate_false_iff, hc']
      simp
  · intro now details s hc
    constructor
    · simp only [Create, CreatePost]
      rw [if_pos hc]
    · simp only [Create, CreatePost]
      rw [if_pos hc]
  · intro now s hreg
    apply find?_eq_none_of_keys
    intro p hp heq
    obtain ⟨k, hk, hkey⟩ := hreg p hp
    have : k = (collectExpiredNodes now s).gen + 1 :=
      formatUint_injective (hkey.symm.trans heq)
    omega

/-- Witness for C3: the `Locked` characterization and the success rule at
concrete inputs (a second `Create` at the locked path `/a`, and a first
`Create` at `/a/b` under a zero-depth `/a`), plus freshness on the
fixture's token registry. -/
theorem claim3_create_locked_characterization_witness :
    ((Create 0 { root := "/a", duration := -1, ownerXML := "", zeroDepth := true }
        stZeroA).1 = Except.error WErr.locked ↔
      ((∃ n, find? (collectExpiredNodes 0 stZeroA).byName (slashClean "/a")
          = some n ∧ n.token ≠ "") ∨
       ((∃ n, find? (collectExpiredNodes 0 stZeroA).byName (slashClean "/a")
          = some n) ∧ (true : Bool) = false) ∨
       (∃ p ∈ (pathLevels (slashClean "/a")).tail,
          ∃ n, find? (collectExpiredNodes 0 stZeroA).byName p = some n ∧
            n.token ≠ "" ∧ n.details.zeroDepth = false))) ∧
    ((Create 0 { root := "/a/b", duration := -1, ownerXML := "", zeroDepth := true }
        stZeroA).1 = Except.ok (formatUint ((collectExpiredNodes 0 stZeroA).gen + 1)) ∧
      (Create 0 { root := "/a/b", duration := -1, ownerXML := "", zeroDepth := true }
        stZeroA).2.gen = (collectExpiredNodes 0 stZeroA).gen + 1) ∧
    find? (collectExpiredNodes 0 stZeroA).byToken
        (formatUint ((collectExpiredNodes 0 stZeroA).gen + 1)) = none :=
  ⟨claim3_create_locked_characterization.1 0
      { root := "/a", duration := -1, ownerXML := "", zeroDepth := true } stZeroA,
   claim3_create_locked_characterization.2.1 0
      { root := "/a/b", duration := -1, ownerXML := "", zeroDepth := true } stZeroA
      (by decide),
   claim3_create_locked_characterization.2.2.1 0 stZeroA
      (by intro p hp; fin_cases hp; exact ⟨1, by decide, by decide⟩)⟩

/-! ## Claim C8 -/

theorem runOps_oracle_independent (ops : List WvOp)
    (h : ops.all (fun op => !(isGetByName op)) = true) :
    ∀ (o1 o2 : List Int) (st : RunState), runOps o1 ops st = runOps o2 ops st := by
  induction ops with
  | nil => intro o1 o2 st; rfl
  | cons op rest ih =>
    rw [List.all_cons, Bool.and_eq_true] at h
    obtain ⟨hop, hrest⟩ := h
    intro o1 o2 st
    have hr := ih hrest o1 o2
    cases op with
    | getByName name => exact absurd hop (by simp [isGetByName])
    | create now details => simp only [runOps, hr]
    | refresh now token duration => simp only [runOps, hr]
    | unlock now token => simp only [runOps, hr]
    | confirm now name0 name1 conditions => simp only [runOps, hr]
    | releaseAt i => simp only [runOps, hr]
    | delete now name => simp only [runOps, hr]

/-- Counterexample to C8 as stated: the very same operation sequence with
the same caller-supplied arguments — a `Create` at time 10 with duration
5, then a `GetByName` — produces different results and states depending
on the wall-clock instant at which `GetByName` happens to run (here 14
versus 15), because `memLS.GetByName` sweeps with `time.Now()` rather
than a caller-supplied `now`. -/
theorem claim8_wall_clock_counterexample :
    runOps [14] [WvOp.getByName "/a"] { ls := stFinA, handles := [] }
      ≠ runOps [15] [WvOp.getByName "/a"] { ls := stFinA, handles := [] } ∧
    (GetByName 14 "/a" stFinA).1 ≠ (GetByName 15 "/a" stFinA).1 :=
  ⟨by decide, by decide⟩

/-- C8 as amended: the manager's behaviour is a deterministic function of
the operation sequence, the `now` arguments supplied by callers, the
initial counter seed, and the wall-clock instants sampled by `GetByName`:
a run containing no `GetByName` is independent of the wall clock, but
`GetByName` begins its sweep at `time.Now()` (not a caller-supplied
`now`), so its result and its effect on the state depend on when it
executes. -/
theorem claim8_deterministic_except_getByName_wall_clock :
    (∀ (ops : List WvOp), ops.all (fun op => !(isGetByName op)) = true →
      ∀ (o1 o2 : List Int) (st : RunState), runOps o1 ops st = runOps o2 ops st) ∧
    (∀ (o : List Int) (name : String) (st : RunState),
      runOps o [WvOp.getByName name] st
        = ([OpOut.got (GetByName (o.headD 0) name st.ls).1],
           { st with ls := (GetByName (o.headD 0) name st.ls).2 })) := by
  refine ⟨runOps_oracle_independent, ?_⟩
  intro o name st
  rfl

/-- Witness for C8: two runs of a `Create`/`Refresh`/`Unlock` sequence
under different oracles coincide. -/
theorem claim8_deterministic_witness :
    runOps [3] [WvOp.create 0 { root := "/a", duration := 5, ownerXML := "", zeroDepth := true },
                WvOp.refresh 1 "1" 9, WvOp.unlock 2 "1"]
        { ls := NewMemLS 0, handles := [] }
      = runOps [99] [WvOp.create 0 { root := "/a", duration := 5, ownerXML := "", zeroDepth := true },
                WvOp.refresh 1 "1" 9, WvOp.unlock 2 "1"]
        { ls := NewMemLS 0, handles := [] } :=
  claim8_deterministic_except_getByName_wall_clock.1
    [WvOp.create 0 { root := "/a", duration := 5, ownerXML := "", zeroDepth := true },
     WvOp.refresh 1 "1" 9, WvOp.unlock 2 "1"] (by decide) [3] [99]
    { ls := NewMemLS 0, handles := [] }

/-! ## Claim C5 -/

theorem sortedB_tail (a : Int × String) (t : List (Int × String))
    (h : sortedByExpiryB (a :: t) = true) : sortedByExpiryB t = true := by
  cases t with
  | nil => rfl
  | cons b t' =>
    simp only [sortedByExpiryB, Bool.and_eq_true] at h
    exact h.2

theorem sortedB_head_le (a : Int × String) (t : List (Int × String))
    (h : sortedByExpiryB (a :: t) = true) : ∀ p ∈ t, a.1 ≤ p.1 := by
  induction t generalizing a with
  | nil => intro p hp; cases hp
  | cons b t' ih =>
    intro p hp
    simp only [sortedByExpiryB, Bool.and_eq_true, decide_eq_true_eq] at h
    obtain ⟨hab, hrest⟩ := h
    rcases List.mem_cons.mp hp with rfl | hp'
    · exact hab
    · exact le_trans hab (ih b (by simpa [sortedByExpiryB] using hrest) p hp')

theorem eraseExpiry_eq_self_of_not_mem (q : List (Int × String)) (r : String)
    (h : r ∉ q.map Prod.snd) : eraseExpiry q r = q := by
  rw [eraseExpiry, List.filter_eq_self]
  intro p hp
  have hpr : p.2 ≠ r := fun hpr => h (List.mem_map.mpr ⟨p, hp, hpr⟩)
  simp [hpr]

theorem eraseExpiry_head (e : Int) (r : String) (t : List (Int × String))
    (h : (((e, r) :: t).map Prod.snd).Nodup) :
    eraseExpiry ((e, r) :: t) r = t := by
  rw [eraseExpiry, List.filter_cons_of_neg (by simp)]
  have hr : r ∉ t.map Prod.snd := by
    simp only [List.map_cons, List.nodup_cons] at h
    exact h.1
  exact eraseExpiry_eq_self_of_not_mem t r hr

/-- Under the queue invariants (ascending order, distinct roots), the
sweep leaves exactly the entries whose expiry is strictly in the future. -/
theorem collectAux_byExpiry_filter (fuel : Nat) (now : Int) :
    ∀ s : MemLS, s.byExpiry.length ≤ fuel →
      sortedByExpiryB s.byExpiry = true →
      (s.byExpiry.map Prod.snd).Nodup →
      (collectAux fuel now s).byExpiry
        = s.byExpiry.filter (fun p => decide (now < p.1)) := by
  induction fuel with
  | zero =>
    intro s hlen _ _
    have hq : s.byExpiry = [] := List.eq_nil_of_length_eq_zero (Nat.le_zero.mp hlen)
    show s.byExpiry = _
    rw [hq]
    rfl
  | succ fuel ih =>
    intro s hlen hs hn
    cases hq : s.byExpiry with
    | nil =>
      simp only [collectAux, hq]
      rfl
    | cons p t =>
      obtain ⟨e, r⟩ := p
      simp only [collectAux, hq]
      by_cases hlt : now < e
      · rw [if_pos hlt, hq, List.filter_cons_of_pos (by simp [hlt])]
        rw [List.filter_eq_self.mpr]
        intro q hq'
        have := sortedB_head_le (e, r) t (hq ▸ hs) q hq'
        simp only [decide_eq_true_eq]
        exact lt_of_lt_of_le hlt this
      · rw [if_neg hlt]
        have hrm : (remove s r).byExpiry = t := by
          rw [remove_byExpiry, hq]
          exact eraseExpiry_head e r t (hq ▸ hn)
        have hlen' : (remove s r).byExpiry.length ≤ fuel := by
          rw [hrm]
          rw [hq] at hlen
          simpa using Nat.lt_succ_iff.mp (Nat.lt_of_lt_of_le (Nat.lt_succ_self _) hlen)
        have hs' : sortedByExpiryB (remove s r).byExpiry = true := by
          rw [hrm]
          exact sortedB_tail (e, r) t (hq ▸ hs)
        have hn' : ((remove s r).byExpiry.map Prod.snd).Nodup := by
          rw [hrm]
          have := hq ▸ hn
          simp only [List.map_cons, List.nodup_cons] at this
          exact this.2
        rw [ih (remove s r) hlen' hs' hn', hrm,
          List.filter_cons_of_neg (by simp [hlt])]

/-- Under the queue invariants, the sweep is exactly the fold of the full
node-removal path over the expired entries, in ascending expiry order. -/
theorem collectAux_eq_foldl_remove (fuel : Nat) (now : Int) :
    ∀ s : MemLS, s.byExpiry.length ≤ fuel →
      sortedByExpiryB s.byExpiry = true →
      (s.byExpiry.map Prod.snd).Nodup →
      collectAux fuel now s
        = ((s.byExpiry.filter (fun p => decide (p.1 ≤ now))).map Prod.snd).foldl
            remove s := by
  induction fuel with
  | zero =>
    intro s hlen _ _
    have hq : s.byExpiry = [] := List.eq_nil_of_length_eq_zero (Nat.le_zero.mp hlen)
    rw [hq]
    rfl
  | succ fuel ih =>
    intro s hlen hs hn
    cases hq : s.byExpiry with
    | nil =>
      simp only [collectAux, hq]
      rfl
    | cons p t =>
      obtain ⟨e, r⟩ := p
      simp only [collectAux, hq]
      by_cases hlt : now < e
      · rw [if_pos hlt]
        have hfil : ((e, r) :: t).filter (fun p => decide (p.1 ≤ now)) = [] := by
          rw [List.filter_eq_nil_iff]
          intro q hq'
          simp only [decide_eq_true_eq]
          rcases List.mem_cons.mp hq' with rfl | hq''
          · exact not_le.mpr hlt
          · have := sortedB_head_le (e, r) t (hq ▸ hs) q hq''
            exact not_le.mpr (lt_of_lt_of_le hlt this)
        rw [hfil]
        rfl
      · rw [if_neg hlt]
        have hrm : (remove s r).byExpiry = t := by
          rw [remove_byExpiry, hq]
          exact eraseExpiry_head e r t (hq ▸ hn)
        have hlen' : (remove s r).byExpiry.length ≤ fuel := by
          rw [hrm]
          rw [hq] at hlen
          simpa using Nat.lt_succ_iff.mp (Nat.lt_of_lt_of_le (Nat.lt_succ_self _) hlen)
        have hs' : sortedByExpiryB (remove s r).byExpiry = true := by
          rw [hrm]
          exact sortedB_tail (e, r) t (hq ▸ hs)
        have hn' : ((remove s r).byExpiry.map Prod.snd).Nodup := by
          rw [hrm]
          have := hq ▸ hn
          simp only [List.map_cons, List.nodup_cons] at this
          exact this.2
        rw [ih (remove s r) hlen' hs' hn', hrm,
          List.filter_cons_of_pos (by simp [not_lt.mp hlt])]
        rw [List.map_cons, List.foldl_cons]

theorem create_fresh_eq (T0 D : Int) (hD : 0 ≤ D) :
    Create T0 { root := "/a", duration := D, ownerXML := "", zeroDepth := true }
        (NewMemLS 0)
      = (Except.ok "1", oneLockA T0 D) := by
  have h : Create T0 { root := "/a", duration := D, ownerXML := "", zeroDepth := true }
      (NewMemLS 0)
      = (Except.ok "1",
        { byName := [("/", { details := { root := "/", duration := 0, ownerXML := "",
                                          zeroDepth := false },
                             token := "", refCount := 1, expiry := 0, held := false }),
                     ("/a", { details := { root := "/a", duration := D, ownerXML := "",
                                           zeroDepth := true },
                              token := "1", refCount := 1,
                              expiry := if 0 ≤ D then T0 + D else 0, held := false })],
          byToken := [("1", "/a")], gen := 1,
          byExpiry := if 0 ≤ D then [(T0 + D, "/a")] else [] }) := rfl
  rw [h]
  simp only [oneLockA]
  rw [if_pos hD, if_pos hD]

theorem oneLockA_keep (T0 D t : Int) (h : t < T0 + D) :
    collectExpiredNodes t (oneLockA T0 D) = oneLockA T0 D := by
  show collectAux 1 t (oneLockA T0 D) = _
  simp only [collectAux, oneLockA]
  rw [if_pos h]

theorem oneLockA_flush (T0 D t : Int) (h : T0 + D ≤ t) :
    collectExpiredNodes t (oneLockA T0 D)
      = { byName := [], byToken := [], gen := 1, byExpiry := [] } := by
  show collectAux 1 t (oneLockA T0 D) = _
  simp only [collectAux, oneLockA]
  rw [if_neg (not_lt.mpr h)]
  rfl

/-- C5: every public operation first sweeps expiration (it factors
through `collectExpiredNodes` at its caller-supplied instant —
`GetByName` at the wall-clock instant it samples); the sweep repeatedly
removes the minimum-expiry entry while it is at or before `now`, which
under the queue invariants removes exactly the expired entries, each via
the full removal path, leaving exactly the strictly-future entries.
Hence a lock created at `T0` with finite duration `D` is visible to
operations strictly before `T0 + D` and treated as absent at or after it:
from a fresh manager, `GetByName` finds the lock at any instant
`< T0 + D`, reports `NoSuchLock` at any instant `≥ T0 + D`, and a
`Create` at the same path at any time `≥ T0 + D` succeeds without
`Locked`. -/
theorem claim5_lazy_expiry_sweep :
    (∀ (now : Int) (details : LockDetails) (s : MemLS),
        Create now details s = CreatePost now details (collectExpiredNodes now s)) ∧
    (∀ (now : Int) (tok : String) (dur : Int) (s : MemLS),
        Refresh now tok dur s = RefreshPost now tok dur (collectExpiredNodes now s)) ∧
    (∀ (now : Int) (tok : String) (s : MemLS),
        Unlock now tok s = UnlockPost tok (collectExpiredNodes now s)) ∧
    (∀ (now : Int) (n0 n1 : String) (cs : List Condition) (s : MemLS),
        Confirm now n0 n1 cs s = ConfirmPost n0 n1 cs (collectExpiredNodes now s)) ∧
    (∀ (now : Int) (nm : String) (s : MemLS),
        Delete now nm s = DeletePost nm (collectExpiredNodes now s)) ∧
    (∀ (w : Int) (nm : String) (s : MemLS),
        GetByName w nm s
          = (getByNameLoop (collectExpiredNodes w s) (pathLevels (slashClean nm)),
             collectExpiredNodes w s)) ∧
    (∀ (now : Int) (s : MemLS),
      sortedByExpiryB s.byExpiry = true → (s.byExpiry.map Prod.snd).Nodup →
      (collectExpiredNodes now s).byExpiry
          = s.byExpiry.filter (fun p => decide (now < p.1)) ∧
      collectExpiredNodes now s
          = ((s.byExpiry.filter (fun p => decide (p.1 ≤ now))).map Prod.snd).foldl
              remove s) ∧
    (∀ T0 D wallT now₂ : Int, 0 ≤ D →
      (Create T0 { root := "/a", duration := D, ownerXML := "", zeroDepth := true }
          (NewMemLS 0)).1 = Except.ok "1" ∧
      (wallT < T0 + D →
        (GetByName wallT "/a"
            (Create T0 { root := "/a", duration := D, ownerXML := "", zeroDepth := true }
              (NewMemLS 0)).2).1
          = Except.ok ("1", T0 + D,
              { root := "/a", duration := D, ownerXML := "", zeroDepth := true })) ∧
      (T0 + D ≤ wallT →
        (GetByName wallT "/a"
            (Create T0 { root := "/a", duration := D, ownerXML := "", zeroDepth := true }
              (NewMemLS 0)).2).1 = Except.error WErr.noSuchLock) ∧
      (T0 + D ≤ now₂ →
        (Create now₂ { root := "/a", duration := D, ownerXML := "", zeroDepth := true }
            (Create T0 { root := "/a", duration := D, ownerXML := "", zeroDepth := true }
              (NewMemLS 0)).2).1 = Except.ok "2")) := by
  refine ⟨fun _ _ _ => rfl, fun _ _ _ _ => rfl, fun _ _ _ => rfl, fun _ _ _ _ _ => rfl,
    fun _ _ _ => rfl, fun _ _ _ => rfl, ?_, ?_⟩
  · intro now s hs hn
    exact ⟨collectAux_byExpiry_filter _ now s (le_refl _) hs hn,
      collectAux_eq_foldl_remove _ now s (le_refl _) hs hn⟩
  · intro T0 D wallT now₂ hD
    refine ⟨?_, ?_, ?_, ?_⟩
    · rw [create_fresh_eq T0 D hD]
    · intro hlt
      rw [create_fresh_eq T0 D hD]
      show getByNameLoop (collectExpiredNodes wallT (oneLockA T0 D))
        (pathLevels (slashClean "/a")) = _
      rw [oneLockA_keep T0 D wallT hlt]
      rfl
    · intro hge
      rw [create_fresh_eq T0 D hD]
      show getByNameLoop (collectExpiredNodes wallT (oneLockA T0 D))
        (pathLevels (slashClean "/a")) = _
      rw [oneLockA_flush T0 D wallT hge]
      rfl
    · intro hge
      rw [create_fresh_eq T0 D hD]
      show (CreatePost now₂ _ (collectExpiredNodes now₂ (oneLockA T0 D))).1 = _
      rw [oneLockA_flush T0 D now₂ hge]
      rfl

/-- Witness for C5: the sweep characterization on the finite-duration
fixture at `now = 20` (the lock of expiry 15 is expired), and the
visibility scenario at `T0 = 10`, `D = 5`, observed at 14 and 15. -/
theorem claim5_lazy_expiry_sweep_witness :
    ((collectExpiredNodes 20 stFinA).byExpiry
        = stFinA.byExpiry.filter (fun p => decide ((20 : Int) < p.1)) ∧
      collectExpiredNodes 20 stFinA
        = ((stFinA.byExpiry.filter (fun p => decide (p.1 ≤ (20 : Int)))).map
            Prod.snd).foldl remove stFinA) ∧
    (GetByName 14 "/a"
        (Create 10 { root := "/a", duration := 5, ownerXML := "", zeroDepth := true }
          (NewMemLS 0)).2).1
      = Except.ok ("1", 15,
          { root := "/a", duration := 5, ownerXML := "", zeroDepth := true }) ∧
    (GetByName 15 "/a"
        (Create 10 { root := "/a", duration := 5, ownerXML := "", zeroDepth := true }
          (NewMemLS 0)).2).1 = Except.error WErr.noSuchLock ∧
    (Create 15 { root := "/a", duration := 5, ownerXML := "", zeroDepth := true }
        (Create 10 { root := "/a", duration := 5, ownerXML := "", zeroDepth := true }
          (NewMemLS 0)).2).1 = Except.ok "2" :=
  ⟨claim5_lazy_expiry_sweep.2.2.2.2.2.2.1 20 stFinA (by decide) (by decide),
   (claim5_lazy_expiry_sweep.2.2.2.2.2.2.2 10 5 14 15 (by decide)).2.1 (by decide),
   (claim5_lazy_expiry_sweep.2.2.2.2.2.2.2 10 5 15 15 (by decide)).2.2.1 (by decide),
   (claim5_lazy_expiry_sweep.2.2.2.2.2.2.2 10 5 15 15 (by decide)).2.2.2 (by decide)⟩

/-! ## Claim C7: lemma kit -/

theorem lookup_some_inversion (s : MemLS) (name : String) (conds : List Condition)
    (r : String) (n : MemLSNode) (h : lookup s name conds = some (r, n)) :
    find? s.byName r = some n ∧ n.held = false ∧ specMatchesName name n = true ∧
      ∃ c ∈ conds, find? s.byToken c.token = some r := by
  induction conds with
  | nil => exact absurd h (by simp [lookup])
  | cons c rest ih =>
    rw [lookup] at h
    cases htok : find? s.byToken c.token with
    | none =>
      rw [htok] at h
      obtain ⟨h1, h2, h3, c', hc', h4⟩ := ih h
      exact ⟨h1, h2, h3, c', List.mem_cons_of_mem _ hc', h4⟩
    | some r' =>
      rw [htok] at h
      cases hn : find? s.byName r' with
      | none =>
        simp only [hn] at h
        obtain ⟨h1, h2, h3, c', hc', h4⟩ := ih h
        exact ⟨h1, h2, h3, c', List.mem_cons_of_mem _ hc', h4⟩
      | some n' =>
        simp only [hn] at h
        by_cases hheld : n'.held
        · rw [if_pos hheld] at h
          obtain ⟨h1, h2, h3, c', hc', h4⟩ := ih h
          exact ⟨h1, h2, h3, c', List.mem_cons_of_mem _ hc', h4⟩
        · rw [if_neg hheld] at h
          by_cases hexact : name = n'.details.root
          · rw [if_pos hexact] at h
            obtain ⟨hr, hn'⟩ := Prod.mk.injEq .. ▸ Option.some.injEq .. ▸ h
            subst hr; subst hn'
            exact ⟨hn, Bool.eq_false_iff.mpr hheld,
              by simp [specMatchesName, hexact],
              c, List.mem_cons_self _ _, htok⟩
          · rw [if_neg hexact] at h
            by_cases hzero : n'.details.zeroDepth
            · rw [if_pos hzero] at h
              obtain ⟨h1, h2, h3, c', hc', h4⟩ := ih h
              exact ⟨h1, h2, h3, c', List.mem_cons_of_mem _ hc', h4⟩
            · rw [if_neg hzero] at h
              by_cases hroot : n'.details.root = "/"
              · rw [if_pos hroot] at h
                obtain ⟨hr, hn'⟩ := Prod.mk.injEq .. ▸ Option.some.injEq .. ▸ h
                subst hr; subst hn'
                exact ⟨hn, Bool.eq_false_iff.mpr hheld,
                  by simp [specMatchesName, hroot, hzero],
                  c, List.mem_cons_self _ _, htok⟩
              · rw [if_neg hroot] at h
                by_cases hpre : strLeads (n'.details.root ++ "/") name = true
                · rw [if_pos hpre] at h
                  obtain ⟨hr, hn'⟩ := Prod.mk.injEq .. ▸ Option.some.injEq .. ▸ h
                  subst hr; subst hn'
                  exact ⟨hn, Bool.eq_false_iff.mpr hheld,
                    by simp [specMatchesName, hpre, hzero],
                    c, List.mem_cons_self _ _, htok⟩
                · rw [if_neg hpre] at h
                  obtain ⟨h1, h2, h3, c', hc', h4⟩ := ih h
                  exact ⟨h1, h2, h3, c', List.mem_cons_of_mem _ hc', h4⟩

theorem lookup_ne_none_of_match (s : MemLS) (name : String) :
    ∀ conds : List Condition, (∃ c ∈ conds, condMatches s name c = true) →
      lookup s name conds ≠ none := by
  intro conds
  rw [lookup_eq_specResolve]
  induction conds with
  | nil =>
    intro h
    obtain ⟨c, hc, _⟩ := h
    cases hc
  | cons c rest ih =>
    intro h
    rw [specResolve]
    by_cases hm : condMatches s name c = true
    · rw [if_pos hm]
      rw [condMatches] at hm
      cases htok : find? s.byToken c.token with
      | none => rw [htok] at hm; simp at hm
      | some r =>
        rw [htok] at hm
        cases hn : find? s.byName r with
        | none =>
          simp only [hn] at hm
          exact absurd hm (by simp)
        | some n => simp [hn]
    · rw [if_neg hm]
      apply ih
      obtain ⟨c', hc', hm'⟩ := h
      rcases List.mem_cons.mp hc' with rfl | hmem
      · exact absurd hm' hm
      · exact ⟨c', hmem, hm'⟩

theorem lookup_none_of_all_held (s : MemLS) (name : String) :
    ∀ conds : List Condition,
      (∀ c ∈ conds, ∀ rr, find? s.byToken c.token = some rr →
        ∃ nn, find? s.byName rr = some nn ∧ nn.held = true) →
      lookup s name conds = none := by
  intro conds
  induction conds with
  | nil => intro _; rfl
  | cons c rest ih =>
    intro h
    have htail := fun c' hc' => h c' (List.mem_cons_of_mem _ hc')
    rw [lookup]
    cases htok : find? s.byToken c.token with
    | none => exact ih htail
    | some rr =>
      obtain ⟨nn, hnn, hheld⟩ := h c (List.mem_cons_self _ _) rr htok
      simp only [hnn]
      rw [if_pos hheld]
      exact ih htail

theorem hold_byToken (s : MemLS) (r : String) : (hold s r).byToken = s.byToken := by
  rw [hold]
  cases find? s.byName r <;> rfl

theorem unhold_byToken (s : MemLS) (r : String) : (unhold s r).byToken = s.byToken := by
  rw [unhold]
  cases find? s.byName r <;> rfl

theorem hold_byName_self (s : MemLS) (r : String) (n : MemLSNode)
    (h : find? s.byName r = some n) :
    find? (hold s r).byName r = some { n with held := true } := by
  simp only [hold, h]
  rw [find?_updateKey, if_pos rfl, h]
  rfl

theorem hold_byName_other (s : MemLS) (r r' : String) (h : r' ≠ r) :
    find? (hold s r).byName r' = find? s.byName r' := by
  cases hn : find? s.byName r with
  | none => simp only [hold, hn]
  | some n =>
    simp only [hold, hn]
    rw [find?_updateKey, if_neg h]

theorem unhold_byName_self (s : MemLS) (r : String) (n : MemLSNode)
    (h : find? s.byName r = some n) :
    find? (unhold s r).byName r = some { n with held := false } := by
  simp only [unhold, h]
  rw [find?_updateKey, if_pos rfl, h]
  rfl

theorem unhold_byName_other (s : MemLS) (r r' : String) (h : r' ≠ r) :
    find? (unhold s r).byName r' = find? s.byName r' := by
  cases hn : find? s.byName r with
  | none => simp only [unhold, hn]
  | some n =>
    simp only [unhold, hn]
    rw [find?_updateKey, if_neg h]

theorem hold_byExpiry_subset (s : MemLS) (r : String) (p : Int × String)
    (h : p ∈ (hold s r).byExpiry) : p ∈ s.byExpiry := by
  cases hn : find? s.byName r with
  | none => simpa [hold, hn] using h
  | some n =>
    simp only [hold, hn] at h
    by_cases hd : 0 ≤ n.details.duration
    · rw [if_pos hd] at h
      exact (List.mem_filter.mp h).1
    · rwa [if_neg hd] at h

theorem not_mem_eraseExpiry_of_not_mem (q : List (Int × String)) (r : String)
    (p : Int × String) (h : p ∉ q) : p ∉ eraseExpiry q r :=
  fun hmem => h (List.mem_filter.mp hmem).1

theorem hold_byExpiry_not_mem (s : MemLS) (r : String) (p : Int × String)
    (h : p ∉ s.byExpiry) : p ∉ (hold s r).byExpiry :=
  fun hmem => h (hold_byExpiry_subset s r p hmem)

theorem collect_eq_self_of_future (now : Int) (s : MemLS)
    (h : ∀ p ∈ s.byExpiry, now < p.1) : collectExpiredNodes now s = s := by
  show collectAux s.byExpiry.length now s = s
  cases hq : s.byExpiry with
  | nil => rfl
  | cons p t =>
    obtain ⟨e, r⟩ := p
    simp only [List.length_cons, collectAux, hq]
    rw [if_pos (h (e, r) (by rw [hq]; exact List.mem_cons_self _ _))]

theorem queueConsistent_spec (s : MemLS) (h : queueConsistentB s = true) :
    ∀ p ∈ s.byExpiry, ∃ nn, find? s.byName p.2 = some nn ∧
      0 ≤ nn.details.duration ∧ nn.held = false ∧ nn.expiry = p.1 ∧
      nn.token ≠ "" := by
  intro p hp
  rw [queueConsistentB, List.all_eq_true] at h
  have hthis := h p hp
  cases hn : find? s.byName p.2 with
  | none => rw [hn] at hthis; simp at hthis
  | some nn =>
    rw [hn] at hthis
    simp only [Bool.and_eq_true, decide_eq_true_eq, Bool.not_eq_true',
      beq_eq_false_iff_ne, ne_eq] at hthis
    exact ⟨nn, rfl, hthis.1.1.1, hthis.1.1.2, hthis.1.2, hthis.2⟩

theorem resolveName_ok_some (s : MemLS) (nm : String) (conds : List Condition)
    (r : String) (h : resolveName s nm conds = Except.ok (some r)) :
    nm ≠ "" ∧ ∃ n, lookup s (slashClean nm) conds = some (r, n) := by
  rw [resolveName] at h
  by_cases h0 : nm = ""
  · rw [if_pos h0] at h
    simp at h
  · rw [if_neg h0] at h
    cases hl : lookup s (slashClean nm) conds with
    | none => rw [hl] at h; simp at h
    | some p =>
      obtain ⟨pr, pn⟩ := p
      rw [hl] at h
      simp only [Except.ok.injEq, Option.some.injEq] at h
      exact ⟨h0, pn, by rw [h]⟩

theorem node_set_held_false (n : MemLSNode) (h : n.held = false) :
    ({ n with held := false } : MemLSNode) = n := by
  cases n
  simp_all

theorem node_heldtrue_then_false (n : MemLSNode) (h : n.held = false) :
    ({ { n with held := true } with held := false } : MemLSNode) = n := by
  cases n
  simp_all

theorem unhold_byExpiry_mem (s : MemLS) (r : String) (n : MemLSNode)
    (h : find? s.byName r = some n) (hd : 0 ≤ n.details.duration) :
    (n.expiry, r) ∈ (unhold s r).byExpiry := by
  simp only [unhold, h]
  rw [if_pos hd]
  exact mem_pushExpiry _ _ _

theorem mem_pushExpiry_of_mem (e : Int) (r : String) (q : List (Int × String))
    (p : Int × String) (h : p ∈ q) : p ∈ pushExpiry e r q := by
  induction q with
  | nil => cases h
  | cons a t ih =>
    obtain ⟨e', r'⟩ := a
    rw [pushExpiry]
    by_cases hle : e' ≤ e
    · rw [if_pos hle]
      rcases List.mem_cons.mp h with rfl | h'
      · exact List.mem_cons_self _ _
      · exact List.mem_cons_of_mem _ (ih h')
    · rw [if_neg hle]
      exact List.mem_cons_of_mem _ h

theorem unhold_byExpiry_superset (s : MemLS) (r : String) (p : Int × String)
    (h : p ∈ s.byExpiry) : p ∈ (unhold s r).byExpiry := by
  cases hn : find? s.byName r with
  | none => simpa [unhold, hn] using h
  | some n =>
    simp only [unhold, hn]
    by_cases hd : 0 ≤ n.details.duration
    · rw [if_pos hd]
      exact mem_pushExpiry_of_mem _ _ _ _ h
    · rwa [if_neg hd]

theorem hold_byExpiry_eq (s : MemLS) (r : String) (n : MemLSNode)
    (h : find? s.byName r = some n) :
    (hold s r).byExpiry
      = if 0 ≤ n.details.duration then eraseExpiry s.byExpiry r
        else s.byExpiry := by
  simp only [hold, h]

/-! ## Claim C7 -/

/-- C7: while a node is held by a successful `Confirm`, it is absent from
the expiry queue and so cannot expire (a later sweep at the same instant
leaves the state untouched), it cannot be matched by another `Confirm`
(which gets `ConfirmationFailed` when no other condition matches), and
`Refresh`/`Unlock` on its token fail with `Locked`; after the returned
release handle is invoked once, `held` is cleared on each resolved node,
a finite-duration node is re-inserted into the expiry queue, and the lock
is matchable again.  These conclusions are stated for each resolved node:
the node resolved from `name0` and, when a second distinct node is
resolved from `name1` (the handle's second component is `some r1`), that
second node as well — it too is marked held, absent from the queue,
blocks `Refresh`/`Unlock` on its token with `Locked`, and is restored
with its queue entry and matchability by the release handle.  Both names
resolving to the same node count as a single hold.  (Hypotheses: the
swept state's queue holds only future-dated entries — which the sweep
itself guarantees — and satisfies the queue-to-node consistency
invariant.) -/
theorem claim7_confirm_hold_release :
    (∀ (now : Int) (name0 name1 : String) (conds : List Condition) (s : MemLS)
        (r0 : String) (r1opt : Option String) (s₂ : MemLS),
      (∀ p ∈ (collectExpiredNodes now s).byExpiry, now < p.1) →
      queueConsistentB (collectExpiredNodes now s) = true →
      Confirm now name0 name1 conds s = (Except.ok (some r0, r1opt), s₂) →
      (∃ n, find? s₂.byName r0 = some n ∧ n.held = true) ∧
      (∀ e, (e, r0) ∉ s₂.byExpiry) ∧
      collectExpiredNodes now s₂ = s₂ ∧
      (∀ (t : String) (dur : Int),
        find? (collectExpiredNodes now s).byToken t = some r0 →
        Refresh now t dur s₂ = (Except.error WErr.locked, s₂) ∧
        Unlock now t s₂ = (Except.error WErr.locked, s₂)) ∧
      (∀ (name' : String) (conds' : List Condition), name' ≠ "" →
        (∀ c ∈ conds', ∀ rr, find? s₂.byToken c.token = some rr →
          ∃ nn, find? s₂.byName rr = some nn ∧ nn.held = true) →
        Confirm now name' "" conds' s₂
          = (Except.error WErr.confirmationFailed, s₂)) ∧
      (∃ n0, lookup (collectExpiredNodes now s) (slashClean name0) conds
            = some (r0, n0) ∧
        n0.held = false ∧
        find? (release (some r0, r1opt) s₂).byName r0 = some n0 ∧
        (0 ≤ n0.details.duration →
          (n0.expiry, r0) ∈ (release (some r0, r1opt) s₂).byExpiry) ∧
        lookup (release (some r0, r1opt) s₂) (slashClean name0) conds ≠ none) ∧
      (∀ r1, r1opt = some r1 →
        (∃ n, find? s₂.byName r1 = some n ∧ n.held = true) ∧
        (∀ e, (e, r1) ∉ s₂.byExpiry) ∧
        (∀ (t : String) (dur : Int),
          find? (collectExpiredNodes now s).byToken t = some r1 →
          Refresh now t dur s₂ = (Except.error WErr.locked, s₂) ∧
          Unlock now t s₂ = (Except.error WErr.locked, s₂)) ∧
        (∃ n1, lookup (collectExpiredNodes now s) (slashClean name1) conds
              = some (r1, n1) ∧
          n1.held = false ∧
          find? (release (some r0, r1opt) s₂).byName r1 = some n1 ∧
          (0 ≤ n1.details.duration →
            (n1.expiry, r1) ∈ (release (some r0, r1opt) s₂).byExpiry) ∧
          lookup (release (some r0, r1opt) s₂) (slashClean name1) conds
            ≠ none))) ∧
    (∀ (now : Int) (nm0 nm1 : String) (cs : List Condition) (st : MemLS)
        (rr : String) (n n' : MemLSNode),
      nm0 ≠ "" → nm1 ≠ "" →
      lookup (collectExpiredNodes now st) (slashClean nm0) cs = some (rr, n) →
      lookup (collectExpiredNodes now st) (slashClean nm1) cs = some (rr, n') →
      Confirm now nm0 nm1 cs st
        = (Except.ok (some rr, none), hold (collectExpiredNodes now st) rr)) := by
  constructor
  · intro now name0 name1 conds s r0 r1opt s₂ hfut hqc hc
    set s' := collectExpiredNodes now s with hs'def
    rw [Confirm, ConfirmPost] at hc
    cases hr0 : resolveName s' name0 conds with
    | error e =>
      rw [hr0] at hc
      exact absurd hc (by simp)
    | ok rr0 =>
      rw [hr0] at hc
      cases hr1 : resolveName s' name1 conds with
      | error e =>
        simp only [hr1] at hc
        exact absurd hc (by simp)
      | ok rr1 =>
        simp only [hr1, Prod.mk.injEq, Except.ok.injEq] at hc
        obtain ⟨⟨hrr0, hrr1⟩, hstate⟩ := hc
        subst hrr0
        obtain ⟨hn0ne, n0, hl0⟩ := resolveName_ok_some s' name0 conds r0 hr0
        obtain ⟨hfind0, hheld0, hmatch0, c0, hc0mem, hc0tok⟩ :=
          lookup_some_inversion s' (slashClean name0) conds r0 n0 hl0
        have hr1facts : (r1opt = none ∧ s₂ = hold s' r0) ∨
            ∃ r1, r1opt = some r1 ∧ r1 ≠ r0 ∧ rr1 = some r1 ∧
              s₂ = hold (hold s' r0) r1 := by
          by_cases hcond : rr1 = some r0
          · rw [if_pos hcond] at hrr1 hstate
            exact Or.inl ⟨hrr1.symm, hstate.symm⟩
          · rw [if_neg hcond] at hrr1 hstate
            cases hrr1val : rr1 with
            | none =>
              rw [hrr1val] at hrr1 hstate
              exact Or.inl ⟨hrr1.symm, hstate.symm⟩
            | some r1 =>
              rw [hrr1val] at hrr1 hstate hcond
              exact Or.inr ⟨r1, hrr1.symm, fun hr => hcond (by rw [hr]),
                rfl, hstate.symm⟩
        have hheldnode : find? s₂.byName r0 = some { n0 with held := true } := by
          rcases hr1facts with ⟨_, h2⟩ | ⟨r1, _, hne, _, h2⟩
          · rw [h2]
            exact hold_byName_self s' r0 n0 hfind0
          · rw [h2, hold_byName_other (hold s' r0) r1 r0 (Ne.symm hne)]
            exact hold_byName_self s' r0 n0 hfind0
        have hnotin' : ∀ e, (e, r0) ∉ (hold s' r0).byExpiry := by
          intro e
          simp only [hold, hfind0]
          by_cases hd : 0 ≤ n0.details.duration
          · rw [if_pos hd]
            exact not_mem_eraseExpiry _ _ _
          · rw [if_neg hd]
            intro hmem
            obtain ⟨nn, hnn, hdnn, _, _, _⟩ := queueConsistent_spec s' hqc (e, r0) hmem
            rw [hfind0] at hnn
            injection hnn with heq
            rw [← heq] at hdnn
            exact hd hdnn
        have hnotin : ∀ e, (e, r0) ∉ s₂.byExpiry := by
          intro e
          rcases hr1facts with ⟨_, h2⟩ | ⟨r1, _, _, _, h2⟩
          · rw [h2]
            exact hnotin' e
          · rw [h2]
            exact hold_byExpiry_not_mem _ r1 _ (hnotin' e)
        have hfut2 : ∀ p ∈ s₂.byExpiry, now < p.1 := by
          intro p hp
          apply hfut
          rcases hr1facts with ⟨_, h2⟩ | ⟨r1, _, _, _, h2⟩
          · rw [h2] at hp
            exact hold_byExpiry_subset s' r0 p hp
          · rw [h2] at hp
            exact hold_byExpiry_subset s' r0 p (hold_byExpiry_subset _ r1 p hp)
        have hcol2 : collectExpiredNodes now s₂ = s₂ :=
          collect_eq_self_of_future now s₂ hfut2
        have htok2 : s₂.byToken = s'.byToken := by
          rcases hr1facts with ⟨_, h2⟩ | ⟨r1, _, _, _, h2⟩
          · rw [h2, hold_byToken]
          · rw [h2, hold_byToken, hold_byToken]
        have hreltok : (release (some r0, r1opt) s₂).byToken = s'.byToken := by
          rcases hr1facts with ⟨hro, _⟩ | ⟨r1, hro, _, _, _⟩
          · rw [hro]
            show (unhold s₂ r0).byToken = s'.byToken
            rw [unhold_byToken, htok2]
          · rw [hro]
            show (unhold (unhold s₂ r1) r0).byToken = s'.byToken
            rw [unhold_byToken, unhold_byToken, htok2]
        refine ⟨⟨{ n0 with held := true }, hheldnode, rfl⟩, hnotin, hcol2,
          ?_, ?_, ?_, ?_⟩
        · intro t dur ht
          have ht2 : find? s₂.byToken t = some r0 := by rw [htok2]; exact ht
          constructor
          · rw [Refresh, hcol2]
            simp only [RefreshPost, ht2, hheldnode]
            rfl
          · rw [Unlock, hcol2]
            simp only [UnlockPost, ht2, hheldnode]
            rfl
        · intro name' conds' hne hall
          have hnone : lookup (collectExpiredNodes now s₂) (slashClean name') conds'
              = none := by
            rw [hcol2]
            exact lookup_none_of_all_held s₂ _ conds' hall
          have hfail := confirm_fails_without_match now name' "" conds' s₂
            (Or.inl ⟨hne, hnone⟩)
          rw [hcol2] at hfail
          exact hfail
        · -- release facts
          have hrel0 : find? (release (some r0, r1opt) s₂).byName r0 = some n0 := by
            rcases hr1facts with ⟨hro, _⟩ | ⟨r1, hro, hne, _, _⟩
            · rw [hro]
              show find? (unhold s₂ r0).byName r0 = some n0
              rw [unhold_byName_self s₂ r0 _ hheldnode]
              exact congrArg some (node_heldtrue_then_false n0 hheld0)
            · rw [hro]
              show find? (unhold (unhold s₂ r1) r0).byName r0 = some n0
              have hmid : find? (unhold s₂ r1).byName r0
                  = some { n0 with held := true } := by
                rw [unhold_byName_other s₂ r1 r0 (Ne.symm hne)]
                exact hheldnode
              rw [unhold_byName_self _ r0 _ hmid]
              exact congrArg some (node_heldtrue_then_false n0 hheld0)
          have hrelq : 0 ≤ n0.details.duration →
              (n0.expiry, r0) ∈ (release (some r0, r1opt) s₂).byExpiry := by
            intro hd
            rcases hr1facts with ⟨hro, _⟩ | ⟨r1, hro, hne, _, _⟩
            · rw [hro]
              exact unhold_byExpiry_mem s₂ r0 { n0 with held := true } hheldnode hd
            · rw [hro]
              have hmid : find? (unhold s₂ r1).byName r0
                  = some { n0 with held := true } := by
                rw [unhold_byName_other s₂ r1 r0 (Ne.symm hne)]
                exact hheldnode
              exact unhold_byExpiry_mem (unhold s₂ r1) r0 { n0 with held := true }
                hmid hd
          refine ⟨n0, hl0, hheld0, hrel0, hrelq, ?_⟩
          apply lookup_ne_none_of_match
          refine ⟨c0, hc0mem, ?_⟩
          simp [condMatches, hreltok, hc0tok, hrel0, hheld0, hmatch0]
        · -- the same conclusions for the second resolved node
          intro r1 hr1some
          rcases hr1facts with ⟨hro, _⟩ | ⟨r1', hro, hne, hrr1eq, h2⟩
          · rw [hro] at hr1some
            exact absurd hr1some (by simp)
          · rw [hro] at hr1some
            injection hr1some with heq
            rw [heq] at hro hne hrr1eq h2
            rw [hrr1eq] at hr1
            obtain ⟨hn1ne, n1, hl1⟩ := resolveName_ok_some s' name1 conds r1 hr1
            obtain ⟨hfind1, hheld1, hmatch1, c1, hc1mem, hc1tok⟩ :=
              lookup_some_inversion s' (slashClean name1) conds r1 n1 hl1
            have hfind1' : find? (hold s' r0).byName r1 = some n1 := by
              rw [hold_byName_other s' r0 r1 hne]
              exact hfind1
            have hheldnode1 : find? s₂.byName r1 = some { n1 with held := true } := by
              rw [h2]
              exact hold_byName_self (hold s' r0) r1 n1 hfind1'
            refine ⟨⟨{ n1 with held := true }, hheldnode1, rfl⟩, ?_, ?_, ?_⟩
            · intro e
              rw [h2]
              show (e, r1) ∉ (hold (hold s' r0) r1).byExpiry
              rw [hold_byExpiry_eq (hold s' r0) r1 n1 hfind1']
              by_cases hd : 0 ≤ n1.details.duration
              · rw [if_pos hd]
                exact not_mem_eraseExpiry _ _ _
              · rw [if_neg hd]
                intro hmem
                have hmem' := hold_byExpiry_subset s' r0 _ hmem
                obtain ⟨nn, hnn, hdnn, _, _, _⟩ :=
                  queueConsistent_spec s' hqc (e, r1) hmem'
                rw [hfind1] at hnn
                injection hnn with heq1
                rw [← heq1] at hdnn
                exact hd hdnn
            · intro t dur ht
              have ht2 : find? s₂.byToken t = some r1 := by rw [htok2]; exact ht
              constructor
              · rw [Refresh, hcol2]
                simp only [RefreshPost, ht2, hheldnode1]
                rfl
              · rw [Unlock, hcol2]
                simp only [UnlockPost, ht2, hheldnode1]
                rfl
            · have hrel1 : find? (release (some r0, r1opt) s₂).byName r1
                  = some n1 := by
                rw [hro]
                show find? (unhold (unhold s₂ r1) r0).byName r1 = some n1
                rw [unhold_byName_other (unhold s₂ r1) r0 r1 hne]
                rw [unhold_byName_self s₂ r1 _ hheldnode1]
                exact congrArg some (node_heldtrue_then_false n1 hheld1)
              have hrelq1 : 0 ≤ n1.details.duration →
                  (n1.expiry, r1) ∈ (release (some r0, r1opt) s₂).byExpiry := by
                intro hd
                rw [hro]
                show (n1.expiry, r1) ∈ (unhold (unhold s₂ r1) r0).byExpiry
                exact unhold_byExpiry_superset (unhold s₂ r1) r0 _
                  (unhold_byExpiry_mem s₂ r1 { n1 with held := true }
                    hheldnode1 hd)
              refine ⟨n1, hl1, hheld1, hrel1, hrelq1, ?_⟩
              apply lookup_ne_none_of_match
              refine ⟨c1, hc1mem, ?_⟩
              simp [condMatches, hreltok, hc1tok, hrel1, hheld1, hmatch1]
  · intro now nm0 nm1 cs st rr n n' h0 h1 hl0 hl1
    have hres0 : resolveName (collectExpiredNodes now st) nm0 cs
        = Except.ok (some rr) := by
      rw [resolveName, if_neg h0, hl0]
    have hres1 : resolveName (collectExpiredNodes now st) nm1 cs
        = Except.ok (some rr) := by
      rw [resolveName, if_neg h1, hl1]
    rw [Confirm, ConfirmPost]
    simp only [hres0, hres1]
    simp

/-- Witness for C7: on the fixture with finite-duration locks `"1"` at
`/a` and `"2"` at `/b`, a `Confirm` claiming both names holds two
distinct nodes: each is marked held and absent from the expiry queue, and
invoking the release handle restores the second node with its queue entry
and matchability (the first node's facts are the theorem's earlier
conjuncts, instantiated at the same input); confirming `/a` under both
names produces a single hold. -/
theorem claim7_confirm_hold_release_witness :
    ((∃ n, find? (Confirm 12 "/a" "/b"
          [{ negate := false, token := "1", etag := "" },
           { negate := false, token := "2", etag := "" }]
          stTwo).2.byName "/a" = some n ∧ n.held = true) ∧
      (∃ n, find? (Confirm 12 "/a" "/b"
          [{ negate := false, token := "1", etag := "" },
           { negate := false, token := "2", etag := "" }]
          stTwo).2.byName "/b" = some n ∧ n.held = true) ∧
      (∀ e, (e, "/a") ∉ (Confirm 12 "/a" "/b"
          [{ negate := false, token := "1", etag := "" },
           { negate := false, token := "2", etag := "" }]
          stTwo).2.byExpiry) ∧
      (∀ e, (e, "/b") ∉ (Confirm 12 "/a" "/b"
          [{ negate := false, token := "1", etag := "" },
           { negate := false, token := "2", etag := "" }]
          stTwo).2.byExpiry) ∧
      (∃ n1, lookup (collectExpiredNodes 12 stTwo) (slashClean "/b")
            [{ negate := false, token := "1", etag := "" },
             { negate := false, token := "2", etag := "" }] = some ("/b", n1) ∧
        n1.held = false ∧
        find? (release (some "/a", some "/b") (Confirm 12 "/a" "/b"
            [{ negate := false, token := "1", etag := "" },
             { negate := false, token := "2", etag := "" }]
            stTwo).2).byName "/b" = some n1 ∧
        (0 ≤ n1.details.duration →
          (n1.expiry, "/b") ∈ (release (some "/a", some "/b") (Confirm 12 "/a" "/b"
              [{ negate := false, token := "1", etag := "" },
               { negate := false, token := "2", etag := "" }]
              stTwo).2).byExpiry) ∧
        lookup (release (some "/a", some "/b") (Confirm 12 "/a" "/b"
            [{ negate := false, token := "1", etag := "" },
             { negate := false, token := "2", etag := "" }] stTwo).2)
          (slashClean "/b")
          [{ negate := false, token := "1", etag := "" },
           { negate := false, token := "2", etag := "" }]
          ≠ none)) ∧
    Confirm 3 "/a" "/a" [{ negate := false, token := "1", etag := "" }] stFinA
      = (Except.ok (some "/a", none),
         hold (collectExpiredNodes 3 stFinA) "/a") := by
  have h1 := claim7_confirm_hold_release.1 12 "/a" "/b"
    [{ negate := false, token := "1", etag := "" },
     { negate := false, token := "2", etag := "" }] stTwo "/a" (some "/b")
    (Confirm 12 "/a" "/b"
      [{ negate := false, token := "1", etag := "" },
       { negate := false, token := "2", etag := "" }] stTwo).2
    (by decide) (by decide) (by decide)
  exact ⟨⟨h1.1, (h1.2.2.2.2.2.2 "/b" rfl).1, h1.2.1,
      (h1.2.2.2.2.2.2 "/b" rfl).2.1,
      (h1.2.2.2.2.2.2 "/b" rfl).2.2.2⟩,
    claim7_confirm_hold_release.2 3 "/a" "/a"
      [{ negate := false, token := "1", etag := "" }] stFinA "/a"
      { details := { root := "/a", duration := 5, ownerXML := "", zeroDepth := true },
        token := "1", refCount := 1, expiry := 15, held := false }
      { details := { root := "/a", duration := 5, ownerXML := "", zeroDepth := true },
        token := "1", refCount := 1, expiry := 15, held := false }
      (by decide) (by decide) (by decide) (by decide)⟩

end Webdav
